import Mathlib

/-!
Verification development for `mcp_stdio_tap.py`, a transparent stdin/stdout/stderr
tap proxy around a child process.

The Python source is shallowly embedded: byte chunks are `List Nat`, decoded text is
`List Char`, the asynchronous relay loops become structurally recursive functions over
the list of chunks a relay reads, and the logging callback produced by `make_logger`
becomes an explicit state transformer `σ → Text → σ × Bool` whose `Bool` records
whether the underlying sink write succeeded (`false` models a raised `OSError`,
which in Python propagates to the caller of `log`).
-/

namespace Tap

/-- A byte chunk as returned by one `read(4096)` call. -/
abbrev Bytes := List Nat

/-- Decoded text, modelling a Python `str` as a list of unicode scalar values. -/
abbrev Text := List Char

/-- Shorthand used to build `Text` constants from Lean string literals. -/
def strToL (s : String) : Text := s.toList

/-! ## Line splitting

`*lines, tail = pending.split("\n")` in both pump loops: the completed lines and the
trailing partial line of a text.  `splitNlP t` returns exactly that pair: Python's
`t.split("\n")` is `(splitNlP t).1 ++ [(splitNlP t).2]`. -/

/-- Model of `*lines, tail = pending.split("\n")`: the newline-terminated complete
lines of `t` together with the trailing text after the last newline. -/
def splitNlP : Text → List Text × Text
  | [] => ([], [])
  | c :: cs =>
    if c = '\n' then ([] :: (splitNlP cs).1, (splitNlP cs).2)
    else
      match splitNlP cs with
      | ([], t) => ([], c :: t)
      | (l :: ls, t) => ((c :: l) :: ls, t)

/-- Prepend leftover text `ta` to the first line of a split further right. -/
def glueSplit (ta : Text) (p : List Text × Text) : List Text × Text :=
  match p.1 with
  | [] => ([], ta ++ p.2)
  | l :: ls => ((ta ++ l) :: ls, p.2)

theorem glueSplit_nil (p : List Text × Text) : glueSplit [] p = p := by
  cases p with
  | mk l t => cases l <;> simp [glueSplit]

theorem splitNlP_append (a b : Text) :
    splitNlP (a ++ b) =
      ((splitNlP a).1 ++ (glueSplit (splitNlP a).2 (splitNlP b)).1,
       (glueSplit (splitNlP a).2 (splitNlP b)).2) := by
  induction a with
  | nil => simp [splitNlP, glueSplit_nil]
  | cons c cs ih =>
    rcases hcs : splitNlP cs with ⟨pl, pt⟩
    rcases hb : splitNlP b with ⟨ql, qt⟩
    rw [hcs, hb] at ih
    by_cases hc : c = '\n'
    · subst hc
      cases pl <;> cases ql <;>
        simp_all [splitNlP, glueSplit]
    · cases pl <;> cases ql <;>
        simp_all [splitNlP, glueSplit, hc]

/-- A text without newlines splits into no complete lines and itself as tail. -/
theorem splitNlP_no_newline (t : Text) (h : '\n' ∉ t) : splitNlP t = ([], t) := by
  induction t with
  | nil => simp [splitNlP]
  | cons c cs ih =>
    have hc : c ≠ '\n' := fun hc => h (hc ▸ List.mem_cons_self c cs)
    have hcs : '\n' ∉ cs := fun hm => h (List.mem_cons_of_mem c hm)
    simp [splitNlP, hc, ih hcs]

/-- The trailing partial line produced by a split never contains a newline. -/
theorem splitNlP_tail_no_newline (t : Text) : '\n' ∉ (splitNlP t).2 := by
  induction t with
  | nil => simp [splitNlP]
  | cons c cs ih =>
    rcases hcs : splitNlP cs with ⟨pl, pt⟩
    rw [hcs] at ih
    by_cases hc : c = '\n'
    · subst hc; simpa [splitNlP, hcs] using ih
    · have hc2 : ¬ '\n' = c := fun h => hc h.symm
      cases pl <;> simp_all [splitNlP, hc]

/-! ## Permissive UTF-8 decoding

Model of Python's `bytes.decode("utf-8", errors="replace")`: every maximal ill-formed
subsequence becomes one U+FFFD replacement character, per the policy CPython follows
(one replacement per maximal subpart; a valid lead byte consumes its valid
continuation prefix before being replaced). -/

/-- The U+FFFD replacement character. -/
def replChar : Char := Char.ofNat 0xFFFD

/-- Is `b` a UTF-8 continuation byte `0x80..0xBF`? -/
def isContByte (b : Nat) : Bool := 0x80 ≤ b && b ≤ 0xBF

/-- Result of decoding one character (or one maximal ill-formed subpart). -/
structure Utf8Out where
  ch : Char
  rest : List Nat
  ok : Bool

/-- Decode one scalar value (or emit one replacement) from lead byte `b` and the
following bytes, returning the bytes not yet consumed. -/
def utf8Step (b : Nat) (rest : List Nat) : Utf8Out :=
  if b < 0x80 then ⟨Char.ofNat b, rest, true⟩
  else if 0xC2 ≤ b ∧ b ≤ 0xDF then
    match rest with
    | c1 :: r1 =>
      if isContByte c1 then ⟨Char.ofNat ((b - 0xC0) * 64 + (c1 - 0x80)), r1, true⟩
      else ⟨replChar, c1 :: r1, false⟩
    | [] => ⟨replChar, [], false⟩
  else if 0xE0 ≤ b ∧ b ≤ 0xEF then
    let lo1 := if b = 0xE0 then 0xA0 else 0x80
    let hi1 := if b = 0xED then 0x9F else 0xBF
    match rest with
    | c1 :: r1 =>
      if lo1 ≤ c1 ∧ c1 ≤ hi1 then
        match r1 with
        | c2 :: r2 =>
          if isContByte c2 then
            ⟨Char.ofNat ((b - 0xE0) * 4096 + (c1 - 0x80) * 64 + (c2 - 0x80)), r2, true⟩
          else ⟨replChar, c2 :: r2, false⟩
        | [] => ⟨replChar, [], false⟩
      else ⟨replChar, c1 :: r1, false⟩
    | [] => ⟨replChar, [], false⟩
  else if 0xF0 ≤ b ∧ b ≤ 0xF4 then
    let lo1 := if b = 0xF0 then 0x90 else 0x80
    let hi1 := if b = 0xF4 then 0x8F else 0xBF
    match rest with
    | c1 :: r1 =>
      if lo1 ≤ c1 ∧ c1 ≤ hi1 then
        match r1 with
        | c2 :: r2 =>
          if isContByte c2 then
            match r2 with
            | c3 :: r3 =>
              if isContByte c3 then
                ⟨Char.ofNat ((b - 0xF0) * 262144 + (c1 - 0x80) * 4096 +
                    (c2 - 0x80) * 64 + (c3 - 0x80)), r3, true⟩
              else ⟨replChar, c3 :: r3, false⟩
            | [] => ⟨replChar, [], false⟩
          else ⟨replChar, c2 :: r2, false⟩
        | [] => ⟨replChar, [], false⟩
      else ⟨replChar, c1 :: r1, false⟩
    | [] => ⟨replChar, [], false⟩
  else ⟨replChar, rest, false⟩

theorem utf8Step_rest_length (b : Nat) (rest : List Nat) :
    (utf8Step b rest).rest.length ≤ rest.length := by
  unfold utf8Step
  repeat' split
  all_goals simp_all [apply_ite Utf8Out.rest, apply_ite List.length]
  all_goals try split_ifs
  all_goals try simp_all
  all_goals omega

/-- Model of `chunk.decode("utf-8", errors="replace")`. -/
def utf8DecodeReplace : List Nat → List Char
  | [] => []
  | b :: rest =>
    let o := utf8Step b rest
    o.ch :: utf8DecodeReplace o.rest
termination_by l => l.length
decreasing_by
  simpa using Nat.lt_succ_of_le (utf8Step_rest_length b rest)

/-- Strict UTF-8 validity: decoding never needed a replacement. -/
def utf8Valid : List Nat → Bool
  | [] => true
  | b :: rest =>
    let o := utf8Step b rest
    o.ok && utf8Valid o.rest
termination_by l => l.length
decreasing_by
  simpa using Nat.lt_succ_of_le (utf8Step_rest_length b rest)

/-! ## Decimal digits

Used both by the `str(int)` interpolations of the Python source
(`f"child exit: {rc}\n"`, `f"<binary {len(chunk)} bytes>\n"`) and by the JSON
serializer's integer output. -/

/-- The character of one decimal digit. -/
def digitCh (n : Nat) : Char := Char.ofNat (48 + n)

/-- Decimal digits of a natural number, most significant first (Python `str(n)`). -/
def natDigits (n : Nat) : List Char :=
  if _h : n < 10 then [digitCh n]
  else natDigits (n / 10) ++ [digitCh (n % 10)]
termination_by n
decreasing_by
  exact Nat.div_lt_self (by omega) (by omega)

/-- Python `str` of an `int`, also `json.dumps` of an integer. -/
def serInt (n : Int) : Text :=
  if n < 0 then '-' :: natDigits n.natAbs else natDigits n.toNat

/-! ## JSON

Model of the `json` stdlib calls made by `prettify_if_json`: `json.loads` and
`json.dumps(obj, indent=2, ensure_ascii=False)`, restricted to the float-free
fragment.  Numbers are integers; a float literal (a `.` or exponent after the
integer part), `NaN`/`Infinity`, and a `\uXXXX` escape denoting a lone surrogate
(unrepresentable in a Lean `Char`) are all treated as parse failures. -/

/-- JSON values of the float-free fragment.  Objects keep insertion order, as a
Python `dict` does. -/
inductive JVal : Type where
  | null : JVal
  | bool (b : Bool) : JVal
  | num (n : Int) : JVal
  | str (s : Text) : JVal
  | arr (elems : List JVal) : JVal
  | obj (members : List (Text × JVal)) : JVal

/-- JSON whitespace, as skipped by `json.loads`. -/
def jws (c : Char) : Bool := c = ' ' || c = '\t' || c = '\n' || c = '\r'

/-- Skip JSON whitespace. -/
def skipWs (s : List Char) : List Char := s.dropWhile jws

/-- Value of a hexadecimal digit, upper or lower case. -/
def hexVal? (c : Char) : Option Nat :=
  if '0' ≤ c ∧ c ≤ '9' then some (c.toNat - 48)
  else if 'a' ≤ c ∧ c ≤ 'f' then some (c.toNat - 87)
  else if 'A' ≤ c ∧ c ≤ 'F' then some (c.toNat - 55)
  else none

/-- Decode one string escape after a backslash; returns the decoded character and how
many characters the escape consumed after the backslash. -/
def parseEsc : List Char → Option (Char × Nat)
  | [] => none
  | e :: rest =>
    if e = '"' then some ('"', 1)
    else if e = '\\' then some ('\\', 1)
    else if e = '/' then some ('/', 1)
    else if e = 'b' then some (Char.ofNat 8, 1)
    else if e = 'f' then some (Char.ofNat 12, 1)
    else if e = 'n' then some ('\n', 1)
    else if e = 'r' then some ('\r', 1)
    else if e = 't' then some ('\t', 1)
    else if e = 'u' then
      match rest with
      | h1 :: h2 :: h3 :: h4 :: rest2 =>
        match hexVal? h1, hexVal? h2, hexVal? h3, hexVal? h4 with
        | some a, some b, some c, some d =>
          let cp := ((a * 16 + b) * 16 + c) * 16 + d
          if 0xD800 ≤ cp ∧ cp ≤ 0xDBFF then
            match rest2 with
            | '\\' :: 'u' :: g1 :: g2 :: g3 :: g4 :: _ =>
              match hexVal? g1, hexVal? g2, hexVal? g3, hexVal? g4 with
              | some a2, some b2, some c2, some d2 =>
                let lo := ((a2 * 16 + b2) * 16 + c2) * 16 + d2
                if 0xDC00 ≤ lo ∧ lo ≤ 0xDFFF then
                  some (Char.ofNat (0x10000 + (cp - 0xD800) * 1024 + (lo - 0xDC00)), 11)
                else none
              | _, _, _, _ => none
            | _ => none
          else if 0xDC00 ≤ cp ∧ cp ≤ 0xDFFF then none
          else some (Char.ofNat cp, 5)
        | _, _, _, _ => none
      | _ => none
    else none

/-- Parse a JSON string body (the opening quote already consumed), in strict mode:
an unescaped control character fails, as in `json.loads`. -/
def parseStr : List Char → Option (List Char × List Char)
  | [] => none
  | c :: rest =>
    if c = '"' then some ([], rest)
    else if c = '\\' then
      match parseEsc rest with
      | none => none
      | some (ch, n) =>
        match parseStr (rest.drop n) with
        | none => none
        | some (tail, r) => some (ch :: tail, r)
    else if c.toNat < 0x20 then none
    else
      match parseStr rest with
      | none => none
      | some (tail, r) => some (c :: tail, r)
termination_by s => s.length
decreasing_by
  · simp only [List.length_cons, List.length_drop]
    omega
  · simp only [List.length_cons]
    omega

/-- Decimal digit test. -/
def isDigitCh (c : Char) : Bool := '0' ≤ c && c ≤ '9'

/-- Numeric value of a digit string, most significant first. -/
def valOfDigits (l : List Char) : Nat := l.foldl (fun a c => a * 10 + (c.toNat - 48)) 0

/-- Parse the integer part of a JSON number: `0` or a nonzero digit followed by any
digits (the regex alternation `0|[1-9][0-9]*` used by `json.loads`). -/
def parseNat : List Char → Option (Nat × List Char)
  | [] => none
  | c :: rest =>
    if c = '0' then some (0, rest)
    else if isDigitCh c then
      some (valOfDigits (c :: rest.takeWhile isDigitCh), rest.dropWhile isDigitCh)
    else none

/-- Does the remaining text begin a fractional or exponent part?  Such numbers are
floats, outside the modelled fragment, and are treated as parse failures. -/
def floatFollows (r : List Char) : Bool :=
  match r with
  | [] => false
  | c :: _ => c = '.' || c = 'e' || c = 'E'

/-- Parse a JSON integer, with optional leading minus sign. -/
def parseNum (s : List Char) : Option (Int × List Char) :=
  match s with
  | '-' :: rest =>
    match parseNat rest with
    | none => none
    | some (n, r) => if floatFollows r then none else some (-(n : Int), r)
  | _ =>
    match parseNat s with
    | none => none
    | some (n, r) => if floatFollows r then none else some ((n : Int), r)

/-- Insert a parsed member into an object under construction: an existing key keeps
its position and takes the new value, otherwise the member is appended — the
behaviour of successive `dict` assignments in Python. -/
def insertKey : List (Text × JVal) → Text → JVal → List (Text × JVal)
  | [], k, v => [(k, v)]
  | (k1, v1) :: rest, k, v =>
    if k1 = k then (k1, v) :: rest else (k1, v1) :: insertKey rest k v

/-- Assemble the members of a parsed object, deduplicating keys as `dict` building
does (last occurrence wins, first occurrence fixes the position). -/
def buildObj (pairs : List (Text × JVal)) : List (Text × JVal) :=
  pairs.foldl (fun acc kv => insertKey acc kv.1 kv.2) []

mutual

/-- Fuel-indexed JSON value parser, the recursive core of `json.loads`. -/
def parseVal : Nat → List Char → Option (JVal × List Char)
  | 0, _ => none
  | fuel + 1, s =>
    match skipWs s with
    | [] => none
    | c :: rest =>
      if c = '{' then
        match skipWs rest with
        | '}' :: r2 => some (.obj [], r2)
        | r2 =>
          match parseMembers fuel r2 with
          | some (kvs, r3) => some (.obj (buildObj kvs), r3)
          | none => none
      else if c = '[' then
        match skipWs rest with
        | ']' :: r2 => some (.arr [], r2)
        | r2 =>
          match parseElems fuel r2 with
          | some (vs, r3) => some (.arr vs, r3)
          | none => none
      else if c = '"' then
        match parseStr rest with
        | some (st, r2) => some (.str st, r2)
        | none => none
      else if c = 't' then
        match rest with
        | 'r' :: 'u' :: 'e' :: r2 => some (.bool true, r2)
        | _ => none
      else if c = 'f' then
        match rest with
        | 'a' :: 'l' :: 's' :: 'e' :: r2 => some (.bool false, r2)
        | _ => none
      else if c = 'n' then
        match rest with
        | 'u' :: 'l' :: 'l' :: r2 => some (.null, r2)
        | _ => none
      else
        match parseNum (c :: rest) with
        | some (n, r2) => some (.num n, r2)
        | none => none

/-- Parse the elements of a nonempty array, positioned at the first element. -/
def parseElems : Nat → List Char → Option (List JVal × List Char)
  | 0, _ => none
  | fuel + 1, s =>
    match parseVal fuel s with
    | none => none
    | some (v, r) =>
      match skipWs r with
      | ',' :: r2 =>
        match parseElems fuel r2 with
        | some (vs, r3) => some (v :: vs, r3)
        | none => none
      | ']' :: r2 => some ([v], r2)
      | _ => none

/-- Parse the members of a nonempty object, positioned at the first key. -/
def parseMembers : Nat → List Char → Option (List (Text × JVal) × List Char)
  | 0, _ => none
  | fuel + 1, s =>
    match skipWs s with
    | '"' :: r1 =>
      match parseStr r1 with
      | none => none
      | some (k, r2) =>
        match skipWs r2 with
        | ':' :: r3 =>
          match parseVal fuel r3 with
          | none => none
          | some (v, r4) =>
            match skipWs r4 with
            | ',' :: r5 =>
              match parseMembers fuel r5 with
              | some (kvs, r6) => some ((k, v) :: kvs, r6)
              | none => none
            | '}' :: r5 => some ([(k, v)], r5)
            | _ => none
        | _ => none
    | _ => none

end

/-- Model of `json.loads` on the float-free fragment: parse one value and require
only whitespace after it.  Inputs `json.loads` accepts but this fragment rejects
(float literals, `NaN`/`Infinity`, lone-surrogate escapes) return `none` here. -/
def jsonLoads (s : List Char) : Option JVal :=
  match parseVal (s.length + 1) s with
  | none => none
  | some (v, rest) => if skipWs rest = [] then some v else none

/-- Newline plus the two-spaces-per-level indentation of `json.dumps(_, indent=2)`. -/
def nlIndent (lvl : Nat) : Text := '\n' :: List.replicate (2 * lvl) ' '

/-- Lowercase hexadecimal digit. -/
def hexDigitCh (n : Nat) : Char :=
  if n < 10 then Char.ofNat (48 + n) else Char.ofNat (87 + n)

/-- Escape one character as `json.dumps(_, ensure_ascii=False)` does: only the
quote, backslash and control characters are escaped; everything else is literal. -/
def escCharJ (c : Char) : Text :=
  if c = '"' then ['\\', '"']
  else if c = '\\' then ['\\', '\\']
  else if c = Char.ofNat 8 then ['\\', 'b']
  else if c = Char.ofNat 12 then ['\\', 'f']
  else if c = '\n' then ['\\', 'n']
  else if c = '\r' then ['\\', 'r']
  else if c = '\t' then ['\\', 't']
  else if c.toNat < 0x20 then
    ['\\', 'u', '0', '0', hexDigitCh (c.toNat / 16), hexDigitCh (c.toNat % 16)]
  else [c]

/-- Serialize a JSON string literal. -/
def serStr (s : Text) : Text := '"' :: (s.map escCharJ).flatten ++ ['"']

mutual

/-- Model of `json.dumps(obj, indent=2, ensure_ascii=False)` at indent level `lvl`. -/
def serVal : Nat → JVal → Text
  | _, .null => strToL "null"
  | _, .bool true => strToL "true"
  | _, .bool false => strToL "false"
  | _, .num n => serInt n
  | _, .str s => serStr s
  | _, .arr [] => strToL "[]"
  | lvl, .arr (x :: xs) =>
    '[' :: nlIndent (lvl + 1) ++ serVal (lvl + 1) x ++ serElems (lvl + 1) xs ++
      nlIndent lvl ++ [']']
  | _, .obj [] => ['{', '}']
  | lvl, .obj ((k, v) :: kvs) =>
    '{' :: nlIndent (lvl + 1) ++ serStr k ++ ':' :: ' ' :: serVal (lvl + 1) v ++
      serMembers (lvl + 1) kvs ++ nlIndent lvl ++ ['}']

/-- Serialize the remaining elements of an array, each preceded by a comma. -/
def serElems : Nat → List JVal → Text
  | _, [] => []
  | lvl, x :: xs => ',' :: nlIndent lvl ++ serVal lvl x ++ serElems lvl xs

/-- Serialize the remaining members of an object, each preceded by a comma. -/
def serMembers : Nat → List (Text × JVal) → Text
  | _, [] => []
  | lvl, (k, v) :: kvs =>
    ',' :: nlIndent lvl ++ serStr k ++ ':' :: ' ' :: serVal lvl v ++ serMembers lvl kvs

end

mutual

/-- Fuel bound sufficient to parse the serialization of a value. -/
def sizeJ : JVal → Nat
  | .null => 1
  | .bool _ => 1
  | .num _ => 1
  | .str _ => 1
  | .arr xs => 2 + sizeList xs
  | .obj kvs => 2 + sizeMembers kvs

/-- Fuel bound for a list of array elements. -/
def sizeList : List JVal → Nat
  | [] => 0
  | x :: xs => 1 + sizeJ x + sizeList xs

/-- Fuel bound for a list of object members. -/
def sizeMembers : List (Text × JVal) → Nat
  | [] => 0
  | (_, v) :: kvs => 1 + sizeJ v + sizeMembers kvs

end

/-- Does key `k` occur in the member list? -/
def keyMem (k : Text) : List (Text × JVal) → Bool
  | [] => false
  | (k1, _) :: rest => k1 = k || keyMem k rest

/-- Are the member keys pairwise distinct? -/
def keysNodup : List (Text × JVal) → Bool
  | [] => true
  | (k, _) :: rest => !keyMem k rest && keysNodup rest

mutual

/-- Well-formedness: every object in the value has pairwise distinct keys.  Parsed
values always satisfy this, since `dict` building deduplicates. -/
def wfJ : JVal → Bool
  | .null => true
  | .bool _ => true
  | .num _ => true
  | .str _ => true
  | .arr xs => wfList xs
  | .obj kvs => keysNodup kvs && wfMembers kvs

/-- Well-formedness of array elements. -/
def wfList : List JVal → Bool
  | [] => true
  | x :: xs => wfJ x && wfList xs

/-- Well-formedness of object member values. -/
def wfMembers : List (Text × JVal) → Bool
  | [] => true
  | (_, v) :: kvs => wfJ v && wfMembers kvs

end

/-! ## The pretty-print transform, `prettify_if_json` -/

/-- Whitespace stripped by Python's `str.strip()`: the characters for which
`str.isspace()` holds (ASCII whitespace, the C1 and Unicode space/separator
code points, and the line/paragraph separators). -/
def pyWs (c : Char) : Bool :=
  let n := c.toNat
  (9 ≤ n && n ≤ 13) || (28 ≤ n && n ≤ 32) || n == 0x85 || n == 0xA0 ||
  n == 0x1680 || (0x2000 ≤ n && n ≤ 0x200A) || n == 0x2028 || n == 0x2029 ||
  n == 0x202F || n == 0x205F || n == 0x3000

/-- Model of `line.strip()`. -/
def pyStrip (s : Text) : Text := ((s.dropWhile pyWs).reverse.dropWhile pyWs).reverse

/-- The protocol marker key looked up by `prettify_if_json`. -/
def jsonrpcKey : Text := strToL "jsonrpc"

/-- `isinstance(obj, dict) and "jsonrpc" in obj`. -/
def hasKeyJsonrpc : JVal → Bool
  | .obj kvs => keyMem jsonrpcKey kvs
  | _ => false

/-- Model of `prettify_if_json(line, enable)`. -/
def prettifyIfJson (line : Text) (enable : Bool) : Text :=
  if enable then
    let s := pyStrip line
    if s.head? = some '{' ∧ s.getLast? = some '}' then
      match jsonLoads s with
      | none => line
      | some v => if hasKeyJsonrpc v then serVal 0 v ++ ['\n'] else line
    else line
  else line

/-! ## The Frame Logger

`make_logger(logfile, quiet)` closes over an optional file handle and returns
`log`/`close`.  A logger is modelled as a state transformer on the sink state `σ`;
the `Bool` result records whether the call returned normally (`false` models an
exception raised by the underlying `fh.write`/`flush` or stderr write, which —
since `write` has no handler — propagates to `log`'s caller). -/

/-- A logging callback over sink state `σ`. -/
def LogFn (σ : Type) := σ → Text → σ × Bool

/-- A sink that records every line it is given and never fails. -/
def recLog : LogFn (List Text) := fun s r => (s ++ [r], true)

/-- A sink whose write always raises (e.g. `OSError` from a full disk). -/
def failLog : LogFn (List Text) := fun s _ => (s, false)

/-- `write(s)` of `make_logger`: writes to the file when a logfile was given, else to
stderr unless quiet, else does nothing.  `fileW`/`errW` model the two devices. -/
def makeLoggerWrite (logfileGiven quiet : Bool) (fileW errW : LogFn δ) : LogFn δ :=
  fun d s =>
    if logfileGiven then fileW d s
    else if quiet then (d, true)
    else errW d s

/-- `log(line)` of `make_logger`: prefix a timestamp and delegate to `write`.  The
timestamp text is supplied by the oracle `tsF` (wall-clock time is outside the
model and no claim depends on it). -/
def makeLoggerLog (tsF : δ → Text) (logfileGiven quiet : Bool)
    (fileW errW : LogFn δ) : LogFn δ :=
  fun d line => makeLoggerWrite logfileGiven quiet fileW errW d
    ('[' :: tsF d ++ ']' :: ' ' :: line)

/-! ## The relays

Each relay loop is recursion over the list of chunks its `read(4096)` calls return
(the empty chunk, end-of-stream, ends the list).  Within one iteration the order of
effects follows the source: log the completed lines first, then forward the raw
chunk.  A failing log call therefore aborts the relay before the chunk is
forwarded. -/

/-- Direction tag `"C -> S: "`. -/
def cToSTag : Text := strToL "C -> S: "

/-- Direction tag `"S -> C: "`. -/
def sToCTag : Text := strToL "S -> C: "

/-- Direction tag `"S-STDERR: "`. -/
def sErrTag : Text := strToL "S-STDERR: "

/-- The `for ln in lines:` loop shared by both line-splitting pumps: log each
completed line, with the pretty transform applied to `ln + "\n"`.  Returns the sink
state and whether every log call returned normally. -/
def logLinesSeq (logFn : LogFn σ) (tag : Text) (pretty : Bool) :
    σ → List Text → σ × Bool
  | s, [] => (s, true)
  | s, ln :: rest =>
    let r := logFn s (tag ++ prettifyIfJson (ln ++ ['\n']) pretty)
    if r.2 then logLinesSeq logFn tag pretty r.1 rest else (r.1, false)

/-- Result of `pump_stdin_to_child`. -/
structure StdinOut (σ : Type) where
  forwarded : List Bytes
  logSt : σ
  pending : Text
  crashed : Bool
  childStdinClosed : Bool

/-- Model of `pump_stdin_to_child`: per chunk, decode permissively, accumulate the
line buffer, log completed lines, then write the raw chunk to the child's stdin and
drain.  The `finally` block closes the child's stdin on every exit path. -/
def pumpStdinToChild (logFn : LogFn σ) (pretty : Bool) :
    σ → Text → List Bytes → StdinOut σ
  | s, pending, [] =>
    { forwarded := [], logSt := s, pending := pending, crashed := false,
      childStdinClosed := true }
  | s, pending, chunk :: rest =>
    let text := utf8DecodeReplace chunk
    let sp := splitNlP (pending ++ text)
    let lr := logLinesSeq logFn cToSTag pretty s sp.1
    if lr.2 then
      let out := pumpStdinToChild logFn pretty lr.1 sp.2 rest
      { out with forwarded := chunk :: out.forwarded }
    else
      { forwarded := [], logSt := lr.1, pending := pending ++ text, crashed := true,
        childStdinClosed := true }

/-- Result of `pump_child_to_stdout`. -/
structure StdoutOut (σ : Type) where
  forwarded : List Bytes
  logSt : σ
  crashed : Bool

/-- Model of `pump_child_to_stdout`: per chunk, decode permissively, log completed
lines, then write the raw chunk to stdout; at end-of-stream, flush a non-empty
trailing partial line to the log. -/
def pumpChildToStdout (logFn : LogFn σ) (pretty : Bool) :
    σ → Text → List Bytes → StdoutOut σ
  | s, pending, [] =>
    if pending = [] then { forwarded := [], logSt := s, crashed := false }
    else
      let r := logFn s (sToCTag ++ prettifyIfJson pending pretty)
      { forwarded := [], logSt := r.1, crashed := !r.2 }
  | s, pending, chunk :: rest =>
    let text := utf8DecodeReplace chunk
    let sp := splitNlP (pending ++ text)
    let lr := logLinesSeq logFn sToCTag pretty s sp.1
    if lr.2 then
      let out := pumpChildToStdout logFn pretty lr.1 sp.2 rest
      { out with forwarded := chunk :: out.forwarded }
    else { forwarded := [], logSt := lr.1, crashed := true }

/-- Result of `pump_child_stderr`. -/
structure StderrOut (σ : Type) where
  mirrored : List Bytes
  logSt : σ
  crashed : Bool

/-- The placeholder record `"S-STDERR: <binary {n} bytes>\n"`. -/
def binaryPlaceholder (n : Nat) : Text :=
  sErrTag ++ strToL "<binary " ++ natDigits n ++ strToL " bytes>" ++ ['\n']

/-- Model of `pump_child_stderr`: each chunk is logged as one opaque record of its
permissive decoding; only the log call is wrapped in `try`, so if it raises, the
placeholder record is attempted instead (and a failure of that attempt kills the
relay).  Mirroring to stderr happens after logging. -/
def pumpChildStderr (logFn : LogFn σ) (mirror : Bool) : σ → List Bytes → StderrOut σ
  | s, [] => { mirrored := [], logSt := s, crashed := false }
  | s, chunk :: rest =>
    let r1 := logFn s (sErrTag ++ utf8DecodeReplace chunk)
    if r1.2 then
      let out := pumpChildStderr logFn mirror r1.1 rest
      { out with mirrored := (if mirror then [chunk] else []) ++ out.mirrored }
    else
      let r2 := logFn r1.1 (binaryPlaceholder chunk.length)
      if r2.2 then
        let out := pumpChildStderr logFn mirror r2.1 rest
        { out with mirrored := (if mirror then [chunk] else []) ++ out.mirrored }
      else { mirrored := [], logSt := r2.1, crashed := true }

/-! ## Command splitting and lifecycle -/

/-- Model of `split_cmd(argv)`: split at the first `"--"`, or return the whole list
as the command when no separator is present. -/
def split_cmd (argv : List String) : List String × List String :=
  if "--" ∈ argv then
    (argv.takeWhile (fun a => a ≠ "--"),
     (argv.dropWhile (fun a => a ≠ "--")).tail)
  else ([], argv)

/-- Observable outcome of `main`'s startup phase (after `parse_known_args`). -/
structure StartResult where
  exitCode : Option Nat
  usagePrinted : Bool
  spawned : Option (List String)
  relaysStarted : Nat
deriving DecidableEq

/-- Model of `main` from argument splitting to relay creation: an empty command
prints the usage message and exits with code 2 before any spawn; otherwise the
child is spawned with exactly the command list and the three relay tasks start. -/
def mainStart (rest : List String) : StartResult :=
  let cmd := (split_cmd rest).2
  if cmd = [] then
    { exitCode := some 2, usagePrinted := true, spawned := none, relaysStarted := 0 }
  else
    { exitCode := none, usagePrinted := false, spawned := some cmd, relaysStarted := 3 }

/-- How the child terminated, as exposed by `asyncio`'s `Process.wait`:
`returncode` is the exit code, or minus the signal number when signal-killed. -/
inductive ChildTermination : Type where
  | exited (code : Nat) : ChildTermination
  | signaled (sig : Nat) : ChildTermination

/-- The `returncode` delivered by `await proc.wait()`. -/
def returncode : ChildTermination → Int
  | .exited n => (n : Int)
  | .signaled s => -(s : Int)

/-- One observable step of `main`'s shutdown sequence. -/
inductive FinishEvent : Type where
  | cancelRelay (i : Nat) : FinishEvent
  | logWrite (line : Text) : FinishEvent
  | closeLogSink : FinishEvent
  | sysExit (code : Int) : FinishEvent
deriving DecidableEq

/-- The `f"child exit: {rc}\n"` record. -/
def childExitLine (rc : Int) : Text := strToL "child exit: " ++ serInt rc ++ ['\n']

/-- The exit status the operating system reports for `sys.exit(code)` with an
integer argument: the low byte, as observed through `waitpid`. -/
def posixExitStatus (code : Int) : Nat := (code % 256).toNat

/-- Outcome of `main`'s shutdown sequence: the observable events, the final
logger state, and the process exit status reported to the operating system. -/
structure FinishOut (σ : Type) where
  events : List FinishEvent
  logSt : σ
  exitStatus : Nat

/-- Model of `main` after `rc = await proc.wait()`: cancel the three relay tasks
(each cancel under `contextlib.suppress`), then run
`log(f"child exit: \x7brc\x7d\n"); log_close(); sys.exit(rc)`. The `log` call is
the fallible `write` of `make_logger` (no try/except around it): if it succeeds,
`log_close()` runs and `sys.exit(rc)` terminates the process with the child's
code; if it raises, the exception propagates out of `main`, so `log_close()` and
`sys.exit(rc)` never execute, `asyncio.run` re-raises, and the interpreter dies
with the unhandled-exception status 1, the sink never closed. -/
def mainFinish (logFn : LogFn σ) (s : σ) (t : ChildTermination) : FinishOut σ :=
  let rc := returncode t
  let r := logFn s (childExitLine rc)
  if r.2 then
    { events := [.cancelRelay 0, .cancelRelay 1, .cancelRelay 2,
        .logWrite (childExitLine rc), .closeLogSink, .sysExit rc],
      logSt := r.1, exitStatus := posixExitStatus rc }
  else
    { events := [.cancelRelay 0, .cancelRelay 1, .cancelRelay 2],
      logSt := r.1, exitStatus := 1 }

/-- The concatenation of the per-chunk permissive decodings of a chunk sequence. -/
def decodedConcat (chunks : List Bytes) : Text := (chunks.map utf8DecodeReplace).flatten

/-- The logger produced by `make_logger(None, quiet=True)`, recording any device
writes (there are none) in a `List Text` state. -/
def quietLog (tsF : List Text → Text) : LogFn (List Text) :=
  makeLoggerLog tsF false true recLog recLog

/-- The record a line-splitting relay passes to `log` for one completed line. -/
def lineRecord (tag : Text) (pretty : Bool) (ln : Text) : Text :=
  tag ++ prettifyIfJson (ln ++ ['\n']) pretty

/-- May `rest` directly follow a serialized integer without extending or
rejecting it?  True when `rest` does not begin with a digit or with a
fractional/exponent marker. -/
def headSafeNum (r : Text) : Bool :=
  match r with
  | [] => true
  | c :: _ => !(isDigitCh c || c = '.' || c = 'e' || c = 'E')

/-! # Theorems -/

/-! ## Command splitting and startup (C7, C10) -/

theorem split_cmd_no_sep (argv : List String) (h : "--" ∉ argv) :
    split_cmd argv = ([], argv) := by
  simp [split_cmd, h]

theorem split_takeWhile_sep (pre : List String) :
    "--" ∉ pre → List.takeWhile (fun a => a ≠ "--") (pre ++ ["--"]) = pre := by
  induction pre with
  | nil => intro _; simp
  | cons a pre ih =>
    intro h
    have ha : a ≠ "--" := fun hEq => h (hEq ▸ List.mem_cons_self a pre)
    have hpre : "--" ∉ pre := fun hm => h (List.mem_cons_of_mem a hm)
    have hrec := ih hpre
    simp only [ne_eq, decide_not] at hrec ⊢
    simp [List.takeWhile_cons, ha, hrec]

theorem split_dropWhile_sep (pre : List String) :
    "--" ∉ pre →
      (List.dropWhile (fun a => a ≠ "--") (pre ++ ["--"])).tail = [] := by
  induction pre with
  | nil => intro _; simp [List.dropWhile]
  | cons a pre ih =>
    intro h
    have ha : a ≠ "--" := fun hEq => h (hEq ▸ List.mem_cons_self a pre)
    have hpre : "--" ∉ pre := fun hm => h (List.mem_cons_of_mem a hm)
    have hrec := ih hpre
    simp only [ne_eq, decide_not] at hrec ⊢
    simp [List.dropWhile_cons, ha, hrec]

theorem split_cmd_sep_last (pre : List String) (h : "--" ∉ pre) :
    split_cmd (pre ++ ["--"]) = (pre, []) := by
  have hmem : "--" ∈ pre ++ ["--"] := List.mem_append_right pre (by simp)
  simp only [split_cmd, if_pos hmem, Prod.mk.injEq]
  exact ⟨split_takeWhile_sep pre h, split_dropWhile_sep pre h⟩

/-- C7: an empty child command — an argument list that is empty or whose first
`"--"` separator is its last element — makes the proxy print the usage message and
exit with code 2 before any subprocess spawn, with no relays started. -/
theorem c7_empty_command_usage_exit :
    ∀ rest : List String,
      (rest = [] ∨ ∃ pre, rest = pre ++ ["--"] ∧ "--" ∉ pre) →
      mainStart rest =
        { exitCode := some 2, usagePrinted := true, spawned := none,
          relaysStarted := 0 } := by
  intro rest h
  rcases h with h | ⟨pre, hEq, hpre⟩
  · subst h
    simp [mainStart, split_cmd]
  · subst hEq
    simp [mainStart, split_cmd_sep_last pre hpre]

theorem c7_empty_command_usage_exit_witness :
    mainStart ["--"] =
      { exitCode := some 2, usagePrinted := true, spawned := none,
        relaysStarted := 0 } :=
  c7_empty_command_usage_exit ["--"] (Or.inr ⟨[], rfl, by simp⟩)

/-- C10: with no `"--"` separator anywhere in the remaining arguments, `split_cmd`
returns no options and the whole list as the child command, so a nonempty list
launches that command rather than failing with the usage error. -/
theorem c10_no_separator_passthrough :
    ∀ argv : List String, "--" ∉ argv →
      split_cmd argv = ([], argv) ∧
      (argv ≠ [] →
        mainStart argv =
          { exitCode := none, usagePrinted := false, spawned := some argv,
            relaysStarted := 3 }) := by
  intro argv h
  refine ⟨split_cmd_no_sep argv h, fun hne => ?_⟩
  simp [mainStart, split_cmd_no_sep argv h, hne]

theorem c10_no_separator_passthrough_witness :
    split_cmd ["echo", "hi"] = ([], ["echo", "hi"]) ∧
    mainStart ["echo", "hi"] =
      { exitCode := none, usagePrinted := false, spawned := some ["echo", "hi"],
        relaysStarted := 3 } :=
  ⟨(c10_no_separator_passthrough ["echo", "hi"] (by simp)).1,
   (c10_no_separator_passthrough ["echo", "hi"] (by simp)).2 (by simp)⟩

/-! ## Exit-code propagation (C2) -/

/-- When the final `log(f"child exit: \x7brc\x7d\n")` write succeeds, the
shutdown sequence runs to `sys.exit(rc)` and the proxy's exit status is the
child's: code `n < 256` verbatim, and non-zero for a signal kill. -/
theorem mainFinish_recLog (n sg : Nat) (hn : n < 256) (hs0 : 0 < sg)
    (hs : sg < 256) :
    (mainFinish recLog [] (.exited n)).exitStatus = n ∧
    (mainFinish recLog [] (.exited n)).events =
      [.cancelRelay 0, .cancelRelay 1, .cancelRelay 2,
       .logWrite (childExitLine (n : Int)), .closeLogSink, .sysExit (n : Int)] ∧
    (mainFinish recLog [] (.signaled sg)).exitStatus ≠ 0 := by
  refine ⟨?_, by simp [mainFinish, recLog, returncode], ?_⟩
  · simp only [mainFinish, recLog, returncode, posixExitStatus, if_true]
    omega
  · simp only [mainFinish, recLog, returncode, posixExitStatus, if_true]
    omega

/-- C2: refuted. The claim says the proxy always exits with the child's
`returncode` after closing the log sink. But the final
`log(f"child exit: \x7brc\x7d\n")` on line 127 is fallible (C1/C3's failure
mode): if the sink's `write` raises there, `log_close()` and `sys.exit(rc)` are
never reached — the shutdown stops after the three cancellations, the sink is
never closed, and the unhandled exception makes the interpreter exit with
status 1, not the child's code. With a child exit code of 7 and a failing sink
the proxy exits 1 ≠ 7; only with a succeeding sink does it exit 7 (and a
signal kill maps to the non-zero status 247). -/
theorem c2_exit_propagation_broken_by_log_failure :
    (mainFinish failLog [] (.exited 7)).exitStatus = 1 ∧
    (mainFinish failLog [] (.exited 7)).events =
      [.cancelRelay 0, .cancelRelay 1, .cancelRelay 2] ∧
    ¬ FinishEvent.closeLogSink ∈ (mainFinish failLog [] (.exited 7)).events ∧
    ¬ FinishEvent.sysExit 7 ∈ (mainFinish failLog [] (.exited 7)).events ∧
    (1 : Nat) ≠ 7 ∧
    (mainFinish recLog [] (.exited 7)).exitStatus = 7 ∧
    (mainFinish recLog [] (.exited 7)).events =
      [.cancelRelay 0, .cancelRelay 1, .cancelRelay 2,
       .logWrite (childExitLine 7), .closeLogSink, .sysExit 7] ∧
    (mainFinish recLog [] (.signaled 9)).exitStatus = 247 ∧
    (247 : Nat) ≠ 0 := by
  refine ⟨rfl, rfl, ?_, ?_, by decide, ?_, ?_, ?_, by decide⟩
  · simp [mainFinish, failLog, returncode]
  · simp [mainFinish, failLog, returncode]
  · simp [mainFinish, recLog, returncode, posixExitStatus]
  · simp [mainFinish, recLog, returncode]
  · simp [mainFinish, recLog, returncode, posixExitStatus]

/-! ## Logger and pump equations -/

theorem decodedConcat_nil : decodedConcat [] = [] := rfl

theorem decodedConcat_cons (c : Bytes) (rest : List Bytes) :
    decodedConcat (c :: rest) = utf8DecodeReplace c ++ decodedConcat rest := by
  simp [decodedConcat]

theorem splitNlP_append_of_tail (ta y : Text) (h : '\n' ∉ ta) :
    splitNlP (ta ++ y) = glueSplit ta (splitNlP y) := by
  rw [splitNlP_append, splitNlP_no_newline ta h]
  simp

theorem logLinesSeq_recLog (tag : Text) (pretty : Bool) :
    ∀ (lines : List Text) (s : List Text),
      logLinesSeq recLog tag pretty s lines =
        (s ++ lines.map (lineRecord tag pretty), true) := by
  intro lines
  induction lines with
  | nil => intro s; simp [logLinesSeq]
  | cons ln rest ih =>
    intro s
    simp [logLinesSeq, recLog, ih, lineRecord]

theorem quietLog_apply (tsF : List Text → Text) (d : List Text) (line : Text) :
    quietLog tsF d line = (d, true) := rfl

theorem logLinesSeq_quiet (tsF : List Text → Text) (tag : Text) (pretty : Bool) :
    ∀ (lines : List Text) (s : List Text),
      logLinesSeq (quietLog tsF) tag pretty s lines = (s, true) := by
  intro lines
  induction lines with
  | nil => intro s; simp [logLinesSeq]
  | cons ln rest ih =>
    intro s
    simp [logLinesSeq, quietLog_apply, ih]

theorem pumpStdin_recLog_eq (pretty : Bool) :
    ∀ (chunks : List Bytes) (s : List Text) (pending : Text), '\n' ∉ pending →
      pumpStdinToChild recLog pretty s pending chunks =
        { forwarded := chunks,
          logSt := s ++ (splitNlP (pending ++ decodedConcat chunks)).1.map
            (lineRecord cToSTag pretty),
          pending := (splitNlP (pending ++ decodedConcat chunks)).2,
          crashed := false, childStdinClosed := true } := by
  intro chunks
  induction chunks with
  | nil =>
    intro s pending h
    simp [pumpStdinToChild, decodedConcat_nil, splitNlP_no_newline pending h]
  | cons chunk rest ih =>
    intro s pending h
    have htail := splitNlP_tail_no_newline (pending ++ utf8DecodeReplace chunk)
    simp only [pumpStdinToChild, logLinesSeq_recLog]
    rw [ih _ _ htail]
    rw [decodedConcat_cons, ← List.append_assoc,
      splitNlP_append_of_tail _ _ htail,
      splitNlP_append (pending ++ utf8DecodeReplace chunk) (decodedConcat rest)]
    simp [List.map_append, List.append_assoc]

theorem pumpStdout_recLog_eq (pretty : Bool) :
    ∀ (chunks : List Bytes) (s : List Text) (pending : Text), '\n' ∉ pending →
      pumpChildToStdout recLog pretty s pending chunks =
        { forwarded := chunks,
          logSt := s ++ (splitNlP (pending ++ decodedConcat chunks)).1.map
              (lineRecord sToCTag pretty) ++
            (if (splitNlP (pending ++ decodedConcat chunks)).2 = [] then []
             else [sToCTag ++
               prettifyIfJson (splitNlP (pending ++ decodedConcat chunks)).2 pretty]),
          crashed := false } := by
  intro chunks
  induction chunks with
  | nil =>
    intro s pending h
    by_cases hp : pending = []
    · subst hp
      simp [pumpChildToStdout, decodedConcat_nil, splitNlP]
    · simp [pumpChildToStdout, decodedConcat_nil, splitNlP_no_newline pending h, hp,
        recLog]
  | cons chunk rest ih =>
    intro s pending h
    have htail := splitNlP_tail_no_newline (pending ++ utf8DecodeReplace chunk)
    simp only [pumpChildToStdout, logLinesSeq_recLog]
    rw [ih _ _ htail]
    rw [decodedConcat_cons, ← List.append_assoc,
      splitNlP_append_of_tail _ _ htail,
      splitNlP_append (pending ++ utf8DecodeReplace chunk) (decodedConcat rest)]
    simp [List.map_append, List.append_assoc]

theorem pumpStderr_recLog_eq :
    ∀ (chunks : List Bytes) (mirror : Bool) (s : List Text),
      pumpChildStderr recLog mirror s chunks =
        { mirrored := (if mirror then chunks else []),
          logSt := s ++ chunks.map (fun c => sErrTag ++ utf8DecodeReplace c),
          crashed := false } := by
  intro chunks
  induction chunks with
  | nil => intro mirror s; simp [pumpChildStderr]
  | cons chunk rest ih =>
    intro mirror s
    simp only [pumpChildStderr, recLog]
    rw [ih]
    cases mirror <;> simp

theorem pumpStdin_quiet (tsF : List Text → Text) (pretty : Bool) :
    ∀ (chunks : List Bytes) (s : List Text) (pending : Text),
      (pumpStdinToChild (quietLog tsF) pretty s pending chunks).forwarded = chunks ∧
      (pumpStdinToChild (quietLog tsF) pretty s pending chunks).logSt = s ∧
      (pumpStdinToChild (quietLog tsF) pretty s pending chunks).crashed = false ∧
      (pumpStdinToChild (quietLog tsF) pretty s pending chunks).childStdinClosed
        = true := by
  intro chunks
  induction chunks with
  | nil => intro s pending; simp [pumpStdinToChild]
  | cons chunk rest ih =>
    intro s pending
    simp only [pumpStdinToChild, logLinesSeq_quiet]
    simpa using ih s _

theorem pumpStdout_quiet (tsF : List Text → Text) (pretty : Bool) :
    ∀ (chunks : List Bytes) (s : List Text) (pending : Text),
      (pumpChildToStdout (quietLog tsF) pretty s pending chunks).forwarded = chunks ∧
      (pumpChildToStdout (quietLog tsF) pretty s pending chunks).logSt = s ∧
      (pumpChildToStdout (quietLog tsF) pretty s pending chunks).crashed = false := by
  intro chunks
  induction chunks with
  | nil =>
    intro s pending
    by_cases hp : pending = [] <;> simp [pumpChildToStdout, hp, quietLog_apply]
  | cons chunk rest ih =>
    intro s pending
    simp only [pumpChildToStdout, logLinesSeq_quiet]
    simpa using ih s _

theorem pumpStderr_quiet (tsF : List Text → Text) :
    ∀ (chunks : List Bytes) (mirror : Bool) (s : List Text),
      (pumpChildStderr (quietLog tsF) mirror s chunks).mirrored
        = (if mirror then chunks else []) ∧
      (pumpChildStderr (quietLog tsF) mirror s chunks).logSt = s ∧
      (pumpChildStderr (quietLog tsF) mirror s chunks).crashed = false := by
  intro chunks
  induction chunks with
  | nil => intro mirror s; simp [pumpChildStderr]
  | cons chunk rest ih =>
    intro mirror s
    simp only [pumpChildStderr, quietLog_apply]
    rcases ih mirror s with ⟨h1, h2, h3⟩
    cases mirror <;> simp_all

/-! ## Byte fidelity under a failing log (C1) -/

/-- C1: the forwarding paths are *not* independent of the logging outcome.  With a
sink whose write raises, the stdin relay logs the completed line `"hello"` before
writing the chunk, the exception kills the relay, and zero bytes reach the child:
the bytes delivered differ from the bytes fed in. -/
theorem c1_bytes_lost_when_log_raises :
    (pumpStdinToChild failLog false [] [] [[104, 101, 108, 108, 111, 10]]).forwarded
      = [] ∧
    (pumpStdinToChild failLog false [] [] [[104, 101, 108, 108, 111, 10]]).crashed
      = true ∧
    (pumpStdinToChild failLog false [] []
        [[104, 101, 108, 108, 111, 10]]).forwarded.flatten ≠
      ([[104, 101, 108, 108, 111, 10]] : List Bytes).flatten := by
  have hev : pumpStdinToChild failLog false [] [] [[104, 101, 108, 108, 111, 10]] =
      { forwarded := [], logSt := [],
        pending := [Char.ofNat 104, Char.ofNat 101, Char.ofNat 108, Char.ofNat 108,
          Char.ofNat 111, '\n'],
        crashed := true, childStdinClosed := true } := by
    simp [pumpStdinToChild, logLinesSeq, failLog, utf8DecodeReplace, utf8Step,
      splitNlP, prettifyIfJson]
  refine ⟨by rw [hev], by rw [hev], by rw [hev]; decide⟩

/-! ## Logging failures are not swallowed (C3) -/

/-- C3 (refuting evaluation): when a logfile is configured and the file write
raises, the `log` call itself returns abnormally — `write` has no exception
handler, so nothing is swallowed inside the logger. -/
theorem c3_log_raises_on_sink_failure :
    (∀ (tsF : List Text → Text) (d : List Text) (line : Text),
      (makeLoggerLog tsF true false failLog recLog d line).2 = false) ∧
    (makeLoggerLog (fun _ => strToL "12:00:00.000") true false failLog recLog []
      (cToSTag ++ 'x' :: ['\n'])).2 = false := by
  exact ⟨fun tsF d line => rfl, rfl⟩

/-! ## Trailing-partial flush (C4) -/

/-- C4 (amended): only the child→client stdout relay force-flushes a non-empty
trailing partial line to the log at end-of-stream, exactly once; the client→child
stdin relay terminates with its trailing partial line still in the buffer,
unlogged. -/
theorem c4_trailing_flush_stdout_only :
    ∀ (pretty : Bool) (chunks : List Bytes),
      pumpChildToStdout recLog pretty [] [] chunks =
        { forwarded := chunks,
          logSt := (splitNlP (decodedConcat chunks)).1.map (lineRecord sToCTag pretty)
            ++ (if (splitNlP (decodedConcat chunks)).2 = [] then []
                else [sToCTag ++
                  prettifyIfJson (splitNlP (decodedConcat chunks)).2 pretty]),
          crashed := false } ∧
      pumpStdinToChild recLog pretty [] [] chunks =
        { forwarded := chunks,
          logSt := (splitNlP (decodedConcat chunks)).1.map (lineRecord cToSTag pretty),
          pending := (splitNlP (decodedConcat chunks)).2,
          crashed := false, childStdinClosed := true } := by
  intro pretty chunks
  constructor
  · simpa using pumpStdout_recLog_eq pretty chunks [] [] (by simp)
  · simpa using pumpStdin_recLog_eq pretty chunks [] [] (by simp)

/-- C4 (counterexample): the stdin relay reaches end-of-stream with the non-empty
partial line `"abc"` buffered, and logs nothing at all — the trailing partial is
not flushed even once. -/
theorem c4_stdin_trailing_partial_dropped :
    (pumpStdinToChild recLog false [] [] [[97, 98, 99]]).logSt = [] ∧
    (pumpStdinToChild recLog false [] [] [[97, 98, 99]]).pending = strToL "abc" ∧
    strToL "abc" ≠ ([] : Text) := by
  have hev : pumpStdinToChild recLog false [] [] [[97, 98, 99]] =
      { forwarded := [[97, 98, 99]], logSt := [], pending := ['a', 'b', 'c'],
        crashed := false, childStdinClosed := true } := by
    simp [pumpStdinToChild, logLinesSeq, recLog, utf8DecodeReplace, utf8Step,
      splitNlP]
  refine ⟨by rw [hev], by rw [hev]; decide, by decide⟩

/-! ## Line reconstruction across chunk boundaries (C5) -/

/-- C5 (amended): the completed lines a line-splitting relay logs are a function of
the concatenation of the per-chunk permissive decodings — each reassembled line is
logged exactly once, in order, and the trailing partial line is retained in the
buffer.  Chunkings that decode to the same text (in particular, any two splits at
UTF-8 character boundaries of the same byte stream) therefore log identical lines;
a split inside one multi-byte character changes the decoded text and may change
the log. -/
theorem c5_lines_from_decoded_concat :
    ∀ (pretty : Bool) (chunks : List Bytes),
      (pumpStdinToChild recLog pretty [] [] chunks).logSt =
        (splitNlP (decodedConcat chunks)).1.map (lineRecord cToSTag pretty) ∧
      (pumpStdinToChild recLog pretty [] [] chunks).pending =
        (splitNlP (decodedConcat chunks)).2 := by
  intro pretty chunks
  have h := pumpStdin_recLog_eq pretty chunks [] [] (by simp)
  constructor
  · rw [h]; simp
  · rw [h]; simp

/-- C5 (counterexample): the same byte stream `é\n`, split once at the character
boundary and once inside the two-byte character, yields different logged lines
(`"é"` versus two replacement characters), so the logged lines are not invariant
under arbitrary chunk splits of the same text. -/
theorem c5_split_mid_character_changes_log :
    ([[0xC3, 0xA9, 0x0A]] : List Bytes).flatten
      = ([[0xC3], [0xA9, 0x0A]] : List Bytes).flatten ∧
    (pumpStdinToChild recLog false [] [] [[0xC3, 0xA9, 0x0A]]).logSt ≠
      (pumpStdinToChild recLog false [] [] [[0xC3], [0xA9, 0x0A]]).logSt := by
  constructor
  · decide
  · have h1 : (pumpStdinToChild recLog false [] [] [[0xC3, 0xA9, 0x0A]]).logSt =
        [cToSTag ++ [Char.ofNat 233, '\n']] := by
      simp [pumpStdinToChild, logLinesSeq, recLog, utf8DecodeReplace, utf8Step,
        isContByte, splitNlP, prettifyIfJson, lineRecord]
    have h2 : (pumpStdinToChild recLog false [] [] [[0xC3], [0xA9, 0x0A]]).logSt =
        [cToSTag ++ [replChar, replChar, '\n']] := by
      simp [pumpStdinToChild, logLinesSeq, recLog, utf8DecodeReplace, utf8Step,
        isContByte, replChar, splitNlP, prettifyIfJson, lineRecord]
    rw [h1, h2]
    decide

/-! ## Quiet mode (C8) -/

/-- C8: with `--quiet` and no logfile the logger's `write` touches no sink at all —
the device state is unchanged and every call succeeds — while all three relays
forward byte-for-byte exactly as they do with a recording (non-quiet) logger. -/
theorem c8_quiet_mode :
    ∀ (tsF : List Text → Text) (d : List Text) (line : Text) (pretty mirror : Bool)
      (chunks : List Bytes) (s : List Text) (pending : Text),
      makeLoggerLog tsF false true recLog recLog d line = (d, true) ∧
      (pumpStdinToChild (quietLog tsF) pretty s pending chunks).forwarded = chunks ∧
      (pumpStdinToChild (quietLog tsF) pretty s pending chunks).logSt = s ∧
      (pumpStdinToChild (quietLog tsF) pretty s pending chunks).crashed = false ∧
      (pumpChildToStdout (quietLog tsF) pretty s pending chunks).forwarded = chunks ∧
      (pumpChildToStdout (quietLog tsF) pretty s pending chunks).logSt = s ∧
      (pumpChildToStdout (quietLog tsF) pretty s pending chunks).crashed = false ∧
      (pumpChildStderr (quietLog tsF) mirror s chunks).mirrored
        = (if mirror then chunks else []) ∧
      (pumpChildStderr (quietLog tsF) mirror s chunks).logSt = s ∧
      (pumpChildStderr (quietLog tsF) mirror s chunks).crashed = false ∧
      (pumpStdinToChild (quietLog tsF) pretty [] [] chunks).forwarded
        = (pumpStdinToChild recLog pretty [] [] chunks).forwarded ∧
      (pumpChildToStdout (quietLog tsF) pretty [] [] chunks).forwarded
        = (pumpChildToStdout recLog pretty [] [] chunks).forwarded ∧
      (pumpChildStderr (quietLog tsF) mirror [] chunks).mirrored
        = (pumpChildStderr recLog mirror [] chunks).mirrored := by
  intro tsF d line pretty mirror chunks s pending
  obtain ⟨hi1, hi2, hi3, _⟩ := pumpStdin_quiet tsF pretty chunks s pending
  obtain ⟨ho1, ho2, ho3⟩ := pumpStdout_quiet tsF pretty chunks s pending
  obtain ⟨he1, he2, he3⟩ := pumpStderr_quiet tsF chunks mirror s
  refine ⟨quietLog_apply tsF d line, hi1, hi2, hi3, ho1, ho2, ho3, he1, he2, he3,
    ?_, ?_, ?_⟩
  · rw [(pumpStdin_quiet tsF pretty chunks [] []).1,
      pumpStdin_recLog_eq pretty chunks [] [] (by simp)]
  · rw [(pumpStdout_quiet tsF pretty chunks [] []).1,
      pumpStdout_recLog_eq pretty chunks [] [] (by simp)]
  · rw [(pumpStderr_quiet tsF chunks mirror []).1, pumpStderr_recLog_eq chunks mirror []]

/-! ## Stderr relay records (C9) -/

/-- C9 (amended): every chunk of the child's error stream is logged as exactly one
opaque record of its permissive decoding, without line splitting; since replacement
decoding cannot fail, the `<binary N bytes>` placeholder is never produced by
undecodable bytes (it is reachable only when the log call itself raises).
Mirroring forwards the raw chunks exactly when enabled. -/
theorem c9_stderr_one_opaque_record_per_chunk :
    ∀ (mirror : Bool) (chunks : List Bytes),
      pumpChildStderr recLog mirror [] chunks =
        { mirrored := (if mirror then chunks else []),
          logSt := chunks.map (fun c => sErrTag ++ utf8DecodeReplace c),
          crashed := false } := by
  intro mirror chunks
  simpa using pumpStderr_recLog_eq chunks mirror []

/-! ## JSON round-trip machinery (toward C6)

Structured as in verified parser/printer developments: per-production lemmas state
that the parser, applied to a serialized production followed by an arbitrary
continuation, consumes exactly the production and returns the continuation. -/

/-- Structural induction principle for the nested inductive `JVal`. -/
theorem jval_ind {P : JVal → Prop}
    (hnull : P .null) (hbool : ∀ b, P (.bool b)) (hnum : ∀ n, P (.num n))
    (hstr : ∀ s, P (.str s))
    (harr : ∀ xs, (∀ x, x ∈ xs → P x) → P (.arr xs))
    (hobj : ∀ kvs, (∀ kv, kv ∈ kvs → P kv.2) → P (.obj kvs)) :
    ∀ v : JVal, P v
  | .null => hnull
  | .bool b => hbool b
  | .num n => hnum n
  | .str s => hstr s
  | .arr xs => harr xs (fun x hx =>
      jval_ind hnull hbool hnum hstr harr hobj x)
  | .obj kvs => hobj kvs (fun kv hkv =>
      jval_ind hnull hbool hnum hstr harr hobj kv.2)
termination_by v => sizeOf v
decreasing_by
  · have h1 := List.sizeOf_lt_of_mem hx
    simp only [JVal.arr.sizeOf_spec]
    omega
  · have h1 := List.sizeOf_lt_of_mem hkv
    have h2 : sizeOf kv.2 < sizeOf kv := by
      obtain ⟨a, b⟩ := kv
      simp
    simp only [JVal.obj.sizeOf_spec]
    omega

/-- Every decimal digit list is a `digitCh` followed by digits. -/
theorem natDigits_cons (n : Nat) :
    ∃ m t, natDigits n = digitCh m :: t ∧ m < 10 ∧ (1 ≤ n → 1 ≤ m) := by
  induction n using Nat.strong_induction_on with
  | _ n ih =>
    rw [natDigits]
    by_cases h : n < 10
    · exact ⟨n, [], by simp [h], h, fun h1 => h1⟩
    · obtain ⟨m, t, hEq, hm, hm1⟩ := ih (n / 10) (Nat.div_lt_self (by omega) (by omega))
      refine ⟨m, t ++ [digitCh (n % 10)], by simp [h, hEq], hm, fun _ => ?_⟩
      exact hm1 (by omega)

/-- Every character of a decimal digit list is a digit. -/
theorem natDigits_digits (n : Nat) :
    ∀ c ∈ natDigits n, isDigitCh c = true := by
  induction n using Nat.strong_induction_on with
  | _ n ih =>
    rw [natDigits]
    by_cases h : n < 10
    · simp only [dif_pos h, List.mem_singleton]
      intro c hc
      subst hc
      interval_cases n <;> decide
    · simp only [dif_neg h, List.mem_append, List.mem_singleton]
      rintro c (hc | hc)
      · exact ih (n / 10) (Nat.div_lt_self (by omega) (by omega)) c hc
      · subst hc
        have : n % 10 < 10 := Nat.mod_lt _ (by omega)
        interval_cases hm : n % 10 <;> decide

theorem valOfDigits_append_digit (l : List Char) (c : Char) :
    valOfDigits (l ++ [c]) = valOfDigits l * 10 + (c.toNat - 48) := by
  simp [valOfDigits, List.foldl_append]

theorem digitCh_toNat (m : Nat) (h : m < 10) : (digitCh m).toNat = 48 + m := by
  interval_cases m <;> decide

/-- The digit list of `n` evaluates back to `n`. -/
theorem valOfDigits_natDigits (n : Nat) : valOfDigits (natDigits n) = n := by
  induction n using Nat.strong_induction_on with
  | _ n ih =>
    rw [natDigits]
    by_cases h : n < 10
    · simp only [dif_pos h]
      simp [valOfDigits, digitCh_toNat n h]
    · simp only [dif_neg h]
      rw [valOfDigits_append_digit,
        ih (n / 10) (Nat.div_lt_self (by omega) (by omega)),
        digitCh_toNat _ (Nat.mod_lt _ (by omega))]
      omega

theorem takeWhile_all_append {p : Char → Bool} (l r : List Char)
    (hl : ∀ c ∈ l, p c = true)
    (hr : ∀ c, r.head? = some c → p c = false) :
    (l ++ r).takeWhile p = l ∧ (l ++ r).dropWhile p = r := by
  induction l with
  | nil =>
    simp only [List.nil_append]
    cases r with
    | nil => simp
    | cons c t => simp [List.takeWhile_cons, List.dropWhile_cons, hr c rfl]
  | cons a l ih =>
    have ha : p a = true := hl a (List.mem_cons_self a l)
    have hl2 : ∀ c ∈ l, p c = true := fun c hc => hl c (List.mem_cons_of_mem a hc)
    obtain ⟨h1, h2⟩ := ih hl2
    simp [List.takeWhile_cons, List.dropWhile_cons, ha, h1, h2]

/-- Parsing the serialized digits of `n` consumes exactly them and returns `n`. -/
theorem parseNat_natDigits (n : Nat) (rest : Text)
    (hr : ∀ c, rest.head? = some c → isDigitCh c = false) :
    parseNat (natDigits n ++ rest) = some (n, rest) := by
  obtain ⟨m, t, hEq, hm, hm1⟩ := natDigits_cons n
  by_cases h0 : n = 0
  · subst h0
    have : natDigits 0 = ['0'] := by rw [natDigits]; simp; decide
    rw [this]
    simp [parseNat]
  · have hdigits := natDigits_digits n
    have hval := valOfDigits_natDigits n
    rw [hEq] at hdigits hval ⊢
    have hm1' : 1 ≤ m := hm1 (by omega)
    have htd : ∀ c ∈ t, isDigitCh c = true := fun c hc =>
      hdigits c (List.mem_cons_of_mem _ hc)
    obtain ⟨htake, hdrop⟩ := takeWhile_all_append t rest htd hr
    have hne0 : digitCh m ≠ '0' := by interval_cases m <;> decide
    have hdig : isDigitCh (digitCh m) = true := by interval_cases m <;> decide
    simp only [List.cons_append, parseNat, if_neg hne0, hdig, if_pos rfl, if_true]
    rw [htake, hdrop]
    simpa [hval] using rfl

/-- `parseNum` on input not starting with a minus sign reduces to the plain
branch. -/
theorem parseNum_not_dash (s : Text) (hne : s.head? ≠ some '-') :
    parseNum s =
      match parseNat s with
      | none => none
      | some (n, r) => if floatFollows r then none else some ((n : Int), r) := by
  rw [parseNum.eq_def]
  split
  · exact absurd rfl hne
  · rfl

/-- Parsing the serialization of an integer consumes exactly it. -/
theorem parseNum_serInt (i : Int) (rest : Text) (hr : headSafeNum rest = true) :
    parseNum (serInt i ++ rest) = some (i, rest) := by
  have hrd : ∀ c, rest.head? = some c → isDigitCh c = false := by
    intro c hc
    cases rest with
    | nil => simp at hc
    | cons a t =>
      simp only [List.head?_cons, Option.some.injEq] at hc
      subst hc
      simp only [headSafeNum, Bool.not_eq_true', Bool.or_eq_false_iff] at hr
      exact hr.1.1.1
  have hff : floatFollows rest = false := by
    cases rest with
    | nil => rfl
    | cons a t =>
      simp only [headSafeNum, Bool.not_eq_true', Bool.or_eq_false_iff,
        decide_eq_false_iff_not] at hr
      simp [floatFollows, hr.1.1.2, hr.1.2, hr.2]
  unfold serInt
  by_cases hneg : i < 0
  · simp only [if_pos hneg, List.cons_append, parseNum]
    rw [parseNat_natDigits i.natAbs rest hrd]
    simp only [hff, Bool.false_eq_true, if_false, Option.some.injEq,
      Prod.mk.injEq, and_true]
    omega
  · simp only [if_neg hneg]
    obtain ⟨m, t, hEq, hm, _⟩ := natDigits_cons i.toNat
    have hnm : digitCh m ≠ '-' := by interval_cases m <;> decide
    rw [parseNum_not_dash _ (by rw [hEq]; simpa using hnm)]
    rw [parseNat_natDigits i.toNat rest hrd]
    simp only [hff, Bool.false_eq_true, if_false, Option.some.injEq,
      Prod.mk.injEq, and_true]
    omega

theorem hexVal_hexDigitCh (m : Nat) (h : m < 16) :
    hexVal? (hexDigitCh m) = some m := by
  interval_cases m <;> decide

theorem skipWs_cons_not (c : Char) (t : Text) (h : jws c = false) :
    skipWs (c :: t) = c :: t := by
  simp [skipWs, List.dropWhile_cons, h]

theorem skipWs_append_ws (a : Text) (t : Text) (h : ∀ c ∈ a, jws c = true) :
    skipWs (a ++ t) = skipWs t := by
  induction a with
  | nil => simp
  | cons c cs ih =>
    have hc : jws c = true := h c (List.mem_cons_self c cs)
    have hcs : ∀ x ∈ cs, jws x = true := fun x hx => h x (List.mem_cons_of_mem c hx)
    simp [skipWs, List.dropWhile_cons, hc]
    exact ih hcs

theorem nlIndent_ws (lvl : Nat) : ∀ c ∈ nlIndent lvl, jws c = true := by
  intro c hc
  simp only [nlIndent, List.mem_cons, List.mem_replicate] at hc
  rcases hc with hc | ⟨_, hc⟩ <;> subst hc <;> decide

theorem skipWs_nlIndent (lvl : Nat) (t : Text) :
    skipWs (nlIndent lvl ++ t) = skipWs t :=
  skipWs_append_ws _ t (nlIndent_ws lvl)

/-- Decoding the `\u00XX` escape of a control character recovers the character. -/
theorem parseEsc_u_control (c : Char) (h8 : c.toNat < 0x20) (tail : Text) :
    parseEsc ('u' :: '0' :: '0' :: hexDigitCh (c.toNat / 16) ::
      hexDigitCh (c.toNat % 16) :: tail) = some (c, 5) := by
  have hhex1 : hexVal? (hexDigitCh (c.toNat / 16)) = some (c.toNat / 16) :=
    hexVal_hexDigitCh _ (by omega)
  have hhex2 : hexVal? (hexDigitCh (c.toNat % 16)) = some (c.toNat % 16) :=
    hexVal_hexDigitCh _ (by omega)
  have h0 : hexVal? '0' = some 0 := by decide
  simp [parseEsc, hhex1, hhex2, h0]
  split_ifs with hA hB
  · exfalso; omega
  · exfalso; omega
  · have hcp : c.toNat / 16 * 16 + c.toNat % 16 = c.toNat := by omega
    rw [hcp, Char.ofNat_toNat]

/-- Parsing the escaped serialization of a string body, followed by the closing
quote, recovers exactly the string. -/
theorem parseStr_ser (s : Text) : ∀ rest : Text,
    parseStr ((s.map escCharJ).flatten ++ '"' :: rest) = some (s, rest) := by
  induction s with
  | nil => intro rest; simp [parseStr]
  | cons c s ih =>
    intro rest
    simp only [List.map_cons, List.flatten_cons, List.append_assoc]
    by_cases h1 : c = '"'
    · subst h1; simp [escCharJ, parseStr, parseEsc, ih rest]
    · by_cases h2 : c = '\\'
      · subst h2; simp [escCharJ, parseStr, parseEsc, ih rest]
      · by_cases h3 : c = Char.ofNat 8
        · subst h3; simp [escCharJ, parseStr, parseEsc, ih rest]
        · by_cases h4 : c = Char.ofNat 12
          · subst h4; simp [escCharJ, parseStr, parseEsc, ih rest]
          · by_cases h5 : c = '\n'
            · subst h5; simp [escCharJ, parseStr, parseEsc, ih rest]
            · by_cases h6 : c = '\r'
              · subst h6; simp [escCharJ, parseStr, parseEsc, ih rest]
              · by_cases h7 : c = '\t'
                · subst h7; simp [escCharJ, parseStr, parseEsc, ih rest]
                · by_cases h8 : c.toNat < 0x20
                  · have hesc : escCharJ c =
                        ['\\', 'u', '0', '0', hexDigitCh (c.toNat / 16),
                         hexDigitCh (c.toNat % 16)] := by
                      simp [escCharJ, h1, h2, h3, h4, h5, h6, h7, h8]
                    rw [hesc]
                    simp only [List.cons_append, List.nil_append]
                    simp [parseStr, parseEsc_u_control c h8, ih rest]
                  · have hesc : escCharJ c = [c] := by
                      simp [escCharJ, h1, h2, h3, h4, h5, h6, h7, h8]
                    rw [hesc]
                    simp only [List.cons_append, List.nil_append]
                    simp [parseStr, h1, h2, h8, ih rest]

theorem skipWs_skipWs (s : Text) : skipWs (skipWs s) = skipWs s := by
  induction s with
  | nil => rfl
  | cons c t ih =>
    by_cases h : jws c = true
    · simp [skipWs, List.dropWhile_cons, h] at ih ⊢
      exact ih
    · simp only [Bool.not_eq_true] at h
      simp [skipWs, List.dropWhile_cons, h]

theorem parseVal_skipWs (fuel : Nat) (s : Text) :
    parseVal fuel s = parseVal fuel (skipWs s) := by
  cases fuel with
  | zero => rfl
  | succ f => simp only [parseVal, skipWs_skipWs]

theorem parseVal_lead_ws (fuel : Nat) (a s : Text) (h : ∀ c ∈ a, jws c = true) :
    parseVal fuel (a ++ s) = parseVal fuel s := by
  rw [parseVal_skipWs fuel (a ++ s), skipWs_append_ws a s h, ← parseVal_skipWs]

theorem parseElems_lead_ws (fuel : Nat) (a s : Text) (h : ∀ c ∈ a, jws c = true) :
    parseElems fuel (a ++ s) = parseElems fuel s := by
  cases fuel with
  | zero => rfl
  | succ f =>
    simp only [parseElems]
    rw [parseVal_lead_ws f a s h]

theorem parseMembers_lead_ws (fuel : Nat) (a s : Text)
    (h : ∀ c ∈ a, jws c = true) :
    parseMembers fuel (a ++ s) = parseMembers fuel s := by
  cases fuel with
  | zero => rfl
  | succ f =>
    simp only [parseMembers]
    rw [skipWs_append_ws a s h]

theorem keyMem_append (k : Text) (a b : List (Text × JVal)) :
    keyMem k (a ++ b) = (keyMem k a || keyMem k b) := by
  induction a with
  | nil => simp [keyMem]
  | cons kv rest ih =>
    obtain ⟨k1, v1⟩ := kv
    simp [keyMem, ih, Bool.or_assoc]

theorem insertKey_not_mem (acc : List (Text × JVal)) (k : Text) (v : JVal)
    (h : keyMem k acc = false) :
    insertKey acc k v = acc ++ [(k, v)] := by
  induction acc with
  | nil => rfl
  | cons kv rest ih =>
    obtain ⟨k1, v1⟩ := kv
    simp only [keyMem, Bool.or_eq_false_iff, decide_eq_false_iff_not] at h
    simp [insertKey, h.1, ih h.2]

theorem mem_keyMem (kvs : List (Text × JVal)) (k : Text) (v : JVal)
    (h : (k, v) ∈ kvs) : keyMem k kvs = true := by
  induction kvs with
  | nil => simp at h
  | cons kv rest ih =>
    obtain ⟨k1, v1⟩ := kv
    rcases List.mem_cons.mp h with h1 | h1
    · obtain ⟨hk, _⟩ := Prod.mk.injEq .. ▸ h1.symm
      simp [keyMem, hk]
    · simp [keyMem, ih h1]

theorem buildObj_go (kvs : List (Text × JVal)) :
    ∀ acc, keysNodup kvs = true →
      (∀ k2 v2, (k2, v2) ∈ kvs → keyMem k2 acc = false) →
      kvs.foldl (fun acc kv => insertKey acc kv.1 kv.2) acc = acc ++ kvs := by
  induction kvs with
  | nil => simp
  | cons kv rest ih =>
    intro acc hnd hmem
    obtain ⟨k, v⟩ := kv
    simp only [List.foldl_cons]
    rw [insertKey_not_mem acc k v (hmem k v (List.mem_cons_self _ _))]
    simp only [keysNodup, Bool.and_eq_true, Bool.not_eq_true'] at hnd
    rw [ih (acc ++ [(k, v)]) hnd.2 ?_]
    · simp
    intro k2 v2 hm
    rw [keyMem_append]
    have h1 : keyMem k2 acc = false := hmem k2 v2 (List.mem_cons_of_mem _ hm)
    have h2 : keyMem k2 [(k, v)] = false := by
      have hne : k ≠ k2 := by
        intro hEq
        subst hEq
        exact absurd (mem_keyMem rest k v2 hm) (by simp [hnd.1])
      simp [keyMem, hne]
    simp [h1, h2]

/-- Building a dict from members with pairwise distinct keys keeps them as they
are. -/
theorem buildObj_self (kvs : List (Text × JVal)) (h : keysNodup kvs = true) :
    buildObj kvs = kvs := by
  have := buildObj_go kvs [] h (by intro k2 v2 _; rfl)
  simpa [buildObj] using this

/-- Every serialized value starts with a non-whitespace character that is not a
closing bracket. -/
theorem serVal_head (lvl : Nat) (v : JVal) :
    ∃ c t, serVal lvl v = c :: t ∧ jws c = false ∧ c ≠ ']' ∧ c ≠ '}' := by
  cases v with
  | null =>
    exact ⟨'n', ['u', 'l', 'l'], by simp [serVal, strToL], by decide, by decide,
      by decide⟩
  | bool b =>
    cases b with
    | true =>
      exact ⟨'t', ['r', 'u', 'e'], by simp [serVal, strToL], by decide, by decide,
        by decide⟩
    | false =>
      exact ⟨'f', ['a', 'l', 's', 'e'], by simp [serVal, strToL], by decide,
        by decide, by decide⟩
  | num i =>
    by_cases hneg : i < 0
    · exact ⟨'-', natDigits i.natAbs, by simp [serVal, serInt, hneg], by decide,
        by decide, by decide⟩
    · obtain ⟨m, t, hEq, hm, _⟩ := natDigits_cons i.toNat
      refine ⟨digitCh m, t, by simp [serVal, serInt, hneg, hEq], ?_, ?_, ?_⟩ <;>
        interval_cases m <;> decide
  | str s =>
    exact ⟨'"', (s.map escCharJ).flatten ++ ['"'], by simp [serVal, serStr],
      by decide, by decide, by decide⟩
  | arr xs =>
    cases xs with
    | nil => exact ⟨'[', [']'], by simp [serVal, strToL], by decide, by decide,
        by decide⟩
    | cons x xs =>
      exact ⟨'[', nlIndent (lvl + 1) ++ serVal (lvl + 1) x ++
        serElems (lvl + 1) xs ++ nlIndent lvl ++ [']'], by simp [serVal],
        by decide, by decide, by decide⟩
  | obj kvs =>
    cases kvs with
    | nil => exact ⟨'{', ['}'], by simp [serVal], by decide, by decide, by decide⟩
    | cons kv kvs =>
      obtain ⟨k, v⟩ := kv
      exact ⟨'{', nlIndent (lvl + 1) ++ serStr k ++ ':' :: ' ' ::
        serVal (lvl + 1) v ++ serMembers (lvl + 1) kvs ++ nlIndent lvl ++ ['}'],
        by simp [serVal], by decide, by decide, by decide⟩

theorem sizeJ_pos (v : JVal) : 1 ≤ sizeJ v := by
  cases v <;> simp [sizeJ] <;> omega

/-- A serialized integer begins with a minus sign or a digit, so none of the
parser's other dispatch branches can fire on it. -/
theorem serInt_head (n : Int) :
    ∃ c t, serInt n = c :: t ∧ jws c = false ∧ c ≠ '{' ∧ c ≠ '[' ∧ c ≠ '"' ∧
      c ≠ 't' ∧ c ≠ 'f' ∧ c ≠ 'n' := by
  by_cases hneg : n < 0
  · exact ⟨'-', natDigits n.natAbs, by simp [serInt, hneg], by decide, by decide,
      by decide, by decide, by decide, by decide, by decide⟩
  · obtain ⟨m, t, hEq, hm, _⟩ := natDigits_cons n.toNat
    refine ⟨digitCh m, t, by simp [serInt, hneg, hEq], ?_, ?_, ?_, ?_, ?_, ?_, ?_⟩
      <;> interval_cases m <;> decide

/-- On input that starts with none of the structural lead characters, `parseVal`
dispatches to the number parser. -/
theorem parseVal_num_dispatch (f : Nat) (c : Char) (t : Text)
    (hws : jws c = false) (h1 : c ≠ '{') (h2 : c ≠ '[') (h3 : c ≠ '"')
    (h4 : c ≠ 't') (h5 : c ≠ 'f') (h6 : c ≠ 'n') :
    parseVal (f + 1) (c :: t) =
      match parseNum (c :: t) with
      | some (x, r2) => some (.num x, r2)
      | none => none := by
  simp only [parseVal]
  rw [skipWs_cons_not c t hws]
  simp [h1, h2, h3, h4, h5, h6]

/-- Parsing the serialized elements of a nonempty array (the first element, the
comma-prefixed rest, the closing newline-indent and bracket) recovers the
elements. -/
theorem parseElems_ser :
    ∀ (xs : List JVal) (x : JVal) (lvl lvlC fuel : Nat) (rest : Text),
      (∀ y, y ∈ x :: xs → wfJ y = true → ∀ lvl2 fuel2 rest2, sizeJ y ≤ fuel2 →
        headSafeNum rest2 = true →
        parseVal fuel2 (serVal lvl2 y ++ rest2) = some (y, rest2)) →
      wfList (x :: xs) = true →
      1 + sizeJ x + sizeList xs ≤ fuel → headSafeNum rest = true →
      parseElems fuel
          (serVal lvl x ++ (serElems lvl xs ++ (nlIndent lvlC ++ ']' :: rest)))
        = some (x :: xs, rest) := by
  intro xs
  induction xs with
  | nil =>
    intro x lvl lvlC fuel rest hIH hwf hfuel hsafe
    obtain ⟨f, rfl⟩ : ∃ f, fuel = f + 1 := ⟨fuel - 1, by omega⟩
    have hwx : wfJ x = true := by
      simpa [wfList] using hwf
    simp only [parseElems, serElems, List.nil_append]
    rw [hIH x (List.mem_cons_self x []) hwx lvl f _ (by omega) (by rfl)]
    have hnl : skipWs (nlIndent lvlC ++ ']' :: rest) = ']' :: rest := by
      rw [skipWs_nlIndent]
      exact skipWs_cons_not _ _ (by decide)
    simp [hnl]
  | cons y ys ih =>
    intro x lvl lvlC fuel rest hIH hwf hfuel hsafe
    obtain ⟨f, rfl⟩ : ∃ f, fuel = f + 1 := ⟨fuel - 1, by omega⟩
    have hwx : wfJ x = true := by
      have := hwf
      simp only [wfList, Bool.and_eq_true] at this
      exact this.1
    have hwys : wfList (y :: ys) = true := by
      simp only [wfList, Bool.and_eq_true] at hwf ⊢
      exact hwf.2
    simp only [parseElems, serElems]
    have hsafe2 : headSafeNum (',' :: (nlIndent lvl ++ (serVal lvl y ++
        (serElems lvl ys ++ (nlIndent lvlC ++ ']' :: rest))))) = true := rfl
    rw [show (',' :: nlIndent lvl ++ serVal lvl y ++ serElems lvl ys ++
        (nlIndent lvlC ++ ']' :: rest)) = (',' :: (nlIndent lvl ++ (serVal lvl y ++
        (serElems lvl ys ++ (nlIndent lvlC ++ ']' :: rest))))) from by
      simp [List.append_assoc]]
    rw [hIH x (List.mem_cons_self x _) hwx lvl f _
      (by have := sizeJ_pos y; simp [sizeList] at hfuel ⊢; omega) hsafe2]
    have hys := ih y lvl lvlC f rest
      (fun z hz => hIH z (List.mem_cons_of_mem x hz)) hwys
      (by simp [sizeList] at hfuel ⊢; have := sizeJ_pos x; omega) hsafe
    have hcm : skipWs (',' :: (nlIndent lvl ++ (serVal lvl y ++ (serElems lvl ys ++
        (nlIndent lvlC ++ ']' :: rest))))) = ',' :: (nlIndent lvl ++ (serVal lvl y ++
        (serElems lvl ys ++ (nlIndent lvlC ++ ']' :: rest)))) :=
      skipWs_cons_not _ _ (by decide)
    simp [hcm, parseElems_lead_ws f (nlIndent lvl) _ (nlIndent_ws lvl), hys]

/-- Parsing the serialized members of a nonempty object recovers the members. -/
theorem parseMembers_ser :
    ∀ (kvs : List (Text × JVal)) (k : Text) (v : JVal) (lvl lvlC fuel : Nat)
      (rest : Text),
      (∀ kv, kv ∈ (k, v) :: kvs → wfJ kv.2 = true → ∀ lvl2 fuel2 rest2,
        sizeJ kv.2 ≤ fuel2 → headSafeNum rest2 = true →
        parseVal fuel2 (serVal lvl2 kv.2 ++ rest2) = some (kv.2, rest2)) →
      wfMembers ((k, v) :: kvs) = true →
      1 + sizeJ v + sizeMembers kvs ≤ fuel → headSafeNum rest = true →
      parseMembers fuel
          (serStr k ++ (':' :: ' ' :: (serVal lvl v ++ (serMembers lvl kvs ++
            (nlIndent lvlC ++ '}' :: rest)))))
        = some ((k, v) :: kvs, rest) := by
  have hserStrEq : ∀ (k2 A : Text),
      serStr k2 ++ A = '"' :: ((k2.map escCharJ).flatten ++ ('"' :: A)) := by
    intro k2 A
    simp [serStr]
  intro kvs
  induction kvs with
  | nil =>
    intro k v lvl lvlC fuel rest hIH hwf hfuel hsafe
    obtain ⟨f, rfl⟩ : ∃ f, fuel = f + 1 := ⟨fuel - 1, by omega⟩
    have hwv : wfJ v = true := by simpa [wfMembers] using hwf
    have hvalGen : ∀ rest2, headSafeNum rest2 = true →
        parseVal f (serVal lvl v ++ rest2) = some (v, rest2) :=
      fun rest2 h2 =>
        hIH (k, v) (List.mem_cons_self _ _) hwv lvl f rest2
          (show sizeJ v ≤ f by omega) h2
    have hspace : ∀ A : Text, parseVal f (' ' :: A) = parseVal f A :=
      fun A => parseVal_lead_ws f [' '] A
        (by intro c hc; simp at hc; subst hc; rfl)
    have hsafeNl : headSafeNum (nlIndent lvlC ++ '}' :: rest) = true := rfl
    have hnl : skipWs (nlIndent lvlC ++ '}' :: rest) = '}' :: rest := by
      rw [skipWs_nlIndent]
      exact skipWs_cons_not _ _ (by decide)
    simp only [parseMembers, serMembers, List.nil_append]
    rw [hserStrEq]
    rw [skipWs_cons_not _ _ (by decide)]
    simp [parseStr_ser k, skipWs_cons_not, jws, hspace, hvalGen, hsafeNl, hnl]
  | cons kv2 kvs2 ih =>
    intro k v lvl lvlC fuel rest hIH hwf hfuel hsafe
    obtain ⟨f, rfl⟩ : ∃ f, fuel = f + 1 := ⟨fuel - 1, by omega⟩
    obtain ⟨k2, v2⟩ := kv2
    have hwv : wfJ v = true := by
      simp only [wfMembers, Bool.and_eq_true] at hwf
      exact hwf.1
    have hwkvs2 : wfMembers ((k2, v2) :: kvs2) = true := by
      simp only [wfMembers, Bool.and_eq_true] at hwf ⊢
      exact hwf.2
    have hvalGen : ∀ rest2, headSafeNum rest2 = true →
        parseVal f (serVal lvl v ++ rest2) = some (v, rest2) :=
      fun rest2 h2 =>
        hIH (k, v) (List.mem_cons_self _ _) hwv lvl f rest2
          (show sizeJ v ≤ f by
            have := sizeJ_pos v2
            simp [sizeMembers] at hfuel
            omega) h2
    have hspace : ∀ A : Text, parseVal f (' ' :: A) = parseVal f A :=
      fun A => parseVal_lead_ws f [' '] A
        (by intro c hc; simp at hc; subst hc; rfl)
    have hrec := ih k2 v2 lvl lvlC f rest
      (fun kv hkv => hIH kv (List.mem_cons_of_mem _ hkv)) hwkvs2
      (by simp [sizeMembers] at hfuel ⊢; have := sizeJ_pos v; omega) hsafe
    have hwsMem : ∀ A : Text,
        parseMembers f (nlIndent lvl ++ A) = parseMembers f A :=
      fun A => parseMembers_lead_ws f (nlIndent lvl) A (nlIndent_ws lvl)
    simp only [parseMembers, serMembers, List.nil_append]
    rw [hserStrEq]
    rw [skipWs_cons_not _ _ (by decide)]
    simp [parseStr_ser k, skipWs_cons_not, jws, hspace, hvalGen, headSafeNum,
      isDigitCh, hwsMem, hrec, List.append_assoc]

/-- On input starting with `[`, `parseVal` dispatches to the array branch. -/
theorem parseVal_arr_dispatch (f : Nat) (t : Text) :
    parseVal (f + 1) ('[' :: t) =
      (match skipWs t with
       | ']' :: r2 => some (.arr [], r2)
       | r2 =>
         match parseElems f r2 with
         | some (vs, r3) => some (.arr vs, r3)
         | none => none) := by
  simp only [parseVal]
  rw [skipWs_cons_not _ _ (by decide)]
  simp

/-- On input starting with a brace, `parseVal` dispatches to the object branch. -/
theorem parseVal_obj_dispatch (f : Nat) (t : Text) :
    parseVal (f + 1) ('{' :: t) =
      (match skipWs t with
       | '}' :: r2 => some (.obj [], r2)
       | r2 =>
         match parseMembers f r2 with
         | some (kvs, r3) => some (.obj (buildObj kvs), r3)
         | none => none) := by
  simp only [parseVal]
  rw [skipWs_cons_not _ _ (by decide)]
  simp

/-- Round trip: parsing the indented serialization of a well-formed value,
followed by any numeral-safe continuation, recovers exactly the value. -/
theorem parseVal_ser_rt :
    ∀ v : JVal, wfJ v = true → ∀ lvl fuel rest, sizeJ v ≤ fuel →
      headSafeNum rest = true →
      parseVal fuel (serVal lvl v ++ rest) = some (v, rest) := by
  refine jval_ind ?_ ?_ ?_ ?_ ?_ ?_
  · intro _ lvl fuel rest hfuel hsafe
    obtain ⟨f, rfl⟩ : ∃ f, fuel = f + 1 :=
      ⟨fuel - 1, by simp [sizeJ] at hfuel; omega⟩
    have hser : serVal lvl JVal.null ++ rest = 'n' :: 'u' :: 'l' :: 'l' :: rest := by
      simp [serVal, strToL]
    rw [hser]
    simp only [parseVal]
    rw [skipWs_cons_not _ _ (by decide)]
    simp
  · intro b _ lvl fuel rest hfuel hsafe
    obtain ⟨f, rfl⟩ : ∃ f, fuel = f + 1 :=
      ⟨fuel - 1, by simp [sizeJ] at hfuel; omega⟩
    cases b
    · have hser : serVal lvl (JVal.bool false) ++ rest =
          'f' :: 'a' :: 'l' :: 's' :: 'e' :: rest := by
        simp [serVal, strToL]
      rw [hser]
      simp only [parseVal]
      rw [skipWs_cons_not _ _ (by decide)]
      simp
    · have hser : serVal lvl (JVal.bool true) ++ rest =
          't' :: 'r' :: 'u' :: 'e' :: rest := by
        simp [serVal, strToL]
      rw [hser]
      simp only [parseVal]
      rw [skipWs_cons_not _ _ (by decide)]
      simp
  · intro n _ lvl fuel rest hfuel hsafe
    obtain ⟨f, rfl⟩ : ∃ f, fuel = f + 1 :=
      ⟨fuel - 1, by simp [sizeJ] at hfuel; omega⟩
    obtain ⟨c, t, hct, hws, h1, h2, h3, h4, h5, h6⟩ := serInt_head n
    have hser : serVal lvl (JVal.num n) = serInt n := by simp [serVal]
    rw [hser, hct, List.cons_append,
      parseVal_num_dispatch f c (t ++ rest) hws h1 h2 h3 h4 h5 h6,
      ← List.cons_append, ← hct, parseNum_serInt n rest hsafe]
  · intro s _ lvl fuel rest hfuel hsafe
    obtain ⟨f, rfl⟩ : ∃ f, fuel = f + 1 :=
      ⟨fuel - 1, by simp [sizeJ] at hfuel; omega⟩
    have hser : serVal lvl (JVal.str s) ++ rest =
        '"' :: ((s.map escCharJ).flatten ++ ('"' :: rest)) := by
      simp [serVal, serStr]
    rw [hser]
    simp only [parseVal]
    rw [skipWs_cons_not _ _ (by decide)]
    simp [parseStr_ser s rest]
  · intro xs hIH hwf lvl fuel rest hfuel hsafe
    cases xs with
    | nil =>
      obtain ⟨f, rfl⟩ : ∃ f, fuel = f + 1 :=
        ⟨fuel - 1, by simp [sizeJ] at hfuel; omega⟩
      have hser : serVal lvl (JVal.arr []) ++ rest = '[' :: ']' :: rest := by
        simp [serVal, strToL]
      rw [hser]
      simp only [parseVal]
      rw [skipWs_cons_not _ _ (by decide)]
      have h2 : skipWs (']' :: rest) = ']' :: rest :=
        skipWs_cons_not _ _ (by decide)
      simp [h2]
    | cons x xs =>
      obtain ⟨f, rfl⟩ : ∃ f, fuel = f + 1 :=
        ⟨fuel - 1, by have := sizeJ_pos x; simp [sizeJ, sizeList] at hfuel; omega⟩
      have hwl : wfList (x :: xs) = true := by simpa [wfJ] using hwf
      have hser : serVal lvl (JVal.arr (x :: xs)) ++ rest =
          '[' :: (nlIndent (lvl + 1) ++ (serVal (lvl + 1) x ++
            (serElems (lvl + 1) xs ++ (nlIndent lvl ++ (']' :: rest))))) := by
        simp [serVal, List.append_assoc]
      rw [hser, parseVal_arr_dispatch]
      obtain ⟨c, t, hct, hws, hne1, hne2⟩ := serVal_head (lvl + 1) x
      have hsk : skipWs (nlIndent (lvl + 1) ++ (serVal (lvl + 1) x ++
          (serElems (lvl + 1) xs ++ (nlIndent lvl ++ (']' :: rest))))) =
          serVal (lvl + 1) x ++
            (serElems (lvl + 1) xs ++ (nlIndent lvl ++ (']' :: rest))) := by
        rw [skipWs_nlIndent, hct, List.cons_append,
          skipWs_cons_not _ _ hws, ← List.cons_append, ← hct]
      rw [hsk]
      have helems := parseElems_ser xs x (lvl + 1) lvl f rest hIH hwl
        (by simp [sizeJ, sizeList] at hfuel; omega) hsafe
      rw [hct, List.cons_append]
      split
      · rename_i r2 heq
        rw [List.cons.injEq] at heq
        exact absurd heq.1 hne1
      · rw [← List.cons_append, ← hct, helems]
  · intro kvs hIH hwf lvl fuel rest hfuel hsafe
    cases kvs with
    | nil =>
      obtain ⟨f, rfl⟩ : ∃ f, fuel = f + 1 :=
        ⟨fuel - 1, by simp [sizeJ] at hfuel; omega⟩
      have hser : serVal lvl (JVal.obj []) ++ rest = '{' :: '}' :: rest := by
        simp [serVal]
      rw [hser]
      simp only [parseVal]
      rw [skipWs_cons_not _ _ (by decide)]
      have h2 : skipWs ('}' :: rest) = '}' :: rest :=
        skipWs_cons_not _ _ (by decide)
      simp [h2]
    | cons kv kvs =>
      obtain ⟨k, v⟩ := kv
      obtain ⟨f, rfl⟩ : ∃ f, fuel = f + 1 :=
        ⟨fuel - 1, by have := sizeJ_pos v; simp [sizeJ, sizeMembers] at hfuel; omega⟩
      have hnd : keysNodup ((k, v) :: kvs) = true := by
        simp only [wfJ, Bool.and_eq_true] at hwf
        exact hwf.1
      have hwm : wfMembers ((k, v) :: kvs) = true := by
        simp only [wfJ, Bool.and_eq_true] at hwf
        exact hwf.2
      have hser : serVal lvl (JVal.obj ((k, v) :: kvs)) ++ rest =
          '{' :: (nlIndent (lvl + 1) ++ (serStr k ++ (':' :: ' ' ::
            (serVal (lvl + 1) v ++ (serMembers (lvl + 1) kvs ++
              (nlIndent lvl ++ ('}' :: rest))))))) := by
        simp [serVal, List.append_assoc]
      rw [hser, parseVal_obj_dispatch]
      have hserStrEq : ∀ A : Text,
          serStr k ++ A = '"' :: ((k.map escCharJ).flatten ++ ('"' :: A)) := by
        intro A
        simp [serStr]
      have hsk : skipWs (nlIndent (lvl + 1) ++ (serStr k ++ (':' :: ' ' ::
          (serVal (lvl + 1) v ++ (serMembers (lvl + 1) kvs ++
            (nlIndent lvl ++ ('}' :: rest))))))) =
          serStr k ++ (':' :: ' ' :: (serVal (lvl + 1) v ++
            (serMembers (lvl + 1) kvs ++ (nlIndent lvl ++ ('}' :: rest))))) := by
        rw [skipWs_nlIndent, hserStrEq, skipWs_cons_not _ _ (by decide),
          ← hserStrEq]
      rw [hsk]
      have hmem := parseMembers_ser kvs k v (lvl + 1) lvl f rest hIH hwm
        (by simp [sizeJ, sizeMembers] at hfuel; omega) hsafe
      rw [hserStrEq]
      split
      · rename_i r2 heq
        rw [List.cons.injEq] at heq
        exact absurd heq.1 (by decide)
      · rw [← hserStrEq, hmem]
        simp [buildObj_self _ hnd]

/-- The fuel bound of a value is dominated by the length of its serialization, so
`jsonLoads`'s fuel (input length plus one) always suffices for a serialized
value. -/
theorem sizeJ_le_serVal_length :
    ∀ v : JVal, ∀ lvl, sizeJ v ≤ (serVal lvl v).length := by
  refine jval_ind ?_ ?_ ?_ ?_ ?_ ?_
  · intro lvl; simp [serVal, sizeJ, strToL]
  · intro b lvl; cases b <;> simp [serVal, sizeJ, strToL]
  · intro n lvl
    obtain ⟨c, t, hct, _⟩ := serInt_head n
    simp [serVal, sizeJ, hct]
  · intro s lvl; simp [serVal, serStr, sizeJ]
  · intro xs hIH lvl
    cases xs with
    | nil => simp [serVal, sizeJ, sizeList, strToL]
    | cons x xs =>
      have hlist : ∀ (ys : List JVal),
          (∀ y ∈ ys, ∀ lvl2, sizeJ y ≤ (serVal lvl2 y).length) →
          ∀ lvl2, sizeList ys ≤ (serElems lvl2 ys).length := by
        intro ys
        induction ys with
        | nil => intro _ lvl2; simp [sizeList, serElems]
        | cons y ys ih2 =>
          intro h lvl2
          have h1 := h y (List.mem_cons_self _ _) lvl2
          have h2 := ih2 (fun z hz => h z (List.mem_cons_of_mem _ hz)) lvl2
          simp [sizeList, serElems, nlIndent]
          omega
      have h1 := hIH x (List.mem_cons_self _ _) (lvl + 1)
      have h2 := hlist xs (fun z hz => hIH z (List.mem_cons_of_mem _ hz)) (lvl + 1)
      simp [serVal, sizeJ, sizeList, nlIndent]
      omega
  · intro kvs hIH lvl
    cases kvs with
    | nil => simp [serVal, sizeJ, sizeMembers]
    | cons kv kvs =>
      obtain ⟨k, v⟩ := kv
      have hlist : ∀ (ys : List (Text × JVal)),
          (∀ y ∈ ys, ∀ lvl2, sizeJ y.2 ≤ (serVal lvl2 y.2).length) →
          ∀ lvl2, sizeMembers ys ≤ (serMembers lvl2 ys).length := by
        intro ys
        induction ys with
        | nil => intro _ lvl2; simp [sizeMembers, serMembers]
        | cons y ys ih2 =>
          obtain ⟨k2, v2⟩ := y
          intro h lvl2
          have h1 := h (k2, v2) (List.mem_cons_self _ _) lvl2
          have h2 := ih2 (fun z hz => h z (List.mem_cons_of_mem _ hz)) lvl2
          simp [sizeMembers, serMembers, nlIndent] at h1 h2 ⊢
          omega
      have h1 := hIH (k, v) (List.mem_cons_self _ _) (lvl + 1)
      have h2 := hlist kvs (fun z hz => hIH z (List.mem_cons_of_mem _ hz)) (lvl + 1)
      simp [sizeMembers] at h2
      simp [serVal, sizeJ, sizeMembers, nlIndent] at h1 ⊢
      omega

theorem keyMem_insertKey (acc : List (Text × JVal)) (k : Text) (v : JVal)
    (k2 : Text) :
    keyMem k2 (insertKey acc k v) = (keyMem k2 acc || decide (k = k2)) := by
  induction acc with
  | nil => simp [insertKey, keyMem]
  | cons kv acc ih =>
    obtain ⟨k1, v1⟩ := kv
    by_cases hk : k1 = k
    · subst hk
      simp [insertKey, keyMem]
      by_cases h2 : k1 = k2 <;> simp [h2]
    · simp [insertKey, hk, keyMem, ih, Bool.or_assoc]

theorem keysNodup_insertKey (acc : List (Text × JVal)) (k : Text) (v : JVal)
    (h : keysNodup acc = true) : keysNodup (insertKey acc k v) = true := by
  induction acc with
  | nil => simp [insertKey, keysNodup, keyMem]
  | cons kv acc ih =>
    obtain ⟨k1, v1⟩ := kv
    simp only [keysNodup, Bool.and_eq_true, Bool.not_eq_true'] at h
    by_cases hk : k1 = k
    · subst hk
      simp [insertKey, keysNodup, h.1, h.2]
    · simp only [insertKey, if_neg hk, keysNodup, Bool.and_eq_true,
        Bool.not_eq_true']
      refine ⟨?_, ih h.2⟩
      rw [keyMem_insertKey]
      have hk2 : ¬k = k1 := fun hEq => hk hEq.symm
      simp [h.1, hk2]

theorem wfMembers_insertKey (acc : List (Text × JVal)) (k : Text) (v : JVal)
    (ha : wfMembers acc = true) (hv : wfJ v = true) :
    wfMembers (insertKey acc k v) = true := by
  induction acc with
  | nil => simp [insertKey, wfMembers, hv]
  | cons kv acc ih =>
    obtain ⟨k1, v1⟩ := kv
    simp only [wfMembers, Bool.and_eq_true] at ha
    by_cases hk : k1 = k
    · subst hk
      simp [insertKey, wfMembers, hv, ha.2]
    · simp [insertKey, hk, wfMembers, ha.1, ih ha.2]

theorem buildObj_fold_wf :
    ∀ (kvs acc : List (Text × JVal)),
      wfMembers kvs = true → keysNodup acc = true → wfMembers acc = true →
      keysNodup (kvs.foldl (fun a kv => insertKey a kv.1 kv.2) acc) = true ∧
      wfMembers (kvs.foldl (fun a kv => insertKey a kv.1 kv.2) acc) = true := by
  intro kvs
  induction kvs with
  | nil => intro acc _ h1 h2; exact ⟨h1, h2⟩
  | cons kv rest ih =>
    intro acc hwf h1 h2
    obtain ⟨k, v⟩ := kv
    simp only [wfMembers, Bool.and_eq_true] at hwf
    simp only [List.foldl_cons]
    exact ih _ hwf.2 (keysNodup_insertKey acc k v h1)
      (wfMembers_insertKey acc k v h2 hwf.1)

/-- The object built from parsed members has pairwise distinct keys and
well-formed values. -/
theorem buildObj_wf (kvs : List (Text × JVal)) (h : wfMembers kvs = true) :
    keysNodup (buildObj kvs) = true ∧ wfMembers (buildObj kvs) = true :=
  buildObj_fold_wf kvs [] h rfl rfl

/-- Everything the parser returns is well-formed: object keys are pairwise
distinct at every nesting level, because `dict` building deduplicates. -/
theorem parse_wf :
    ∀ fuel : Nat,
      (∀ s v r, parseVal fuel s = some (v, r) → wfJ v = true) ∧
      (∀ s vs r, parseElems fuel s = some (vs, r) → wfList vs = true) ∧
      (∀ s kvs r, parseMembers fuel s = some (kvs, r) → wfMembers kvs = true) := by
  intro fuel
  induction fuel with
  | zero =>
    refine ⟨?_, ?_, ?_⟩ <;>
      (intro s a r h; simp [parseVal, parseElems, parseMembers] at h)
  | succ f ih =>
    obtain ⟨ihV, ihE, ihM⟩ := ih
    refine ⟨?_, ?_, ?_⟩
    · intro s v r h
      simp only [parseVal] at h
      split at h
      · simp at h
      · split_ifs at h
        · -- object branch
          split at h
          · simp only [Option.some.injEq, Prod.mk.injEq] at h
            obtain ⟨rfl, rfl⟩ := h
            simp [wfJ, keysNodup, wfMembers]
          · split at h
            · rename_i kvs2 r3 heq
              simp only [Option.some.injEq, Prod.mk.injEq] at h
              obtain ⟨rfl, rfl⟩ := h
              have hwm := ihM _ _ _ heq
              have hb := buildObj_wf kvs2 hwm
              simp [wfJ, hb.1, hb.2]
            · simp at h
        · -- array branch
          split at h
          · simp only [Option.some.injEq, Prod.mk.injEq] at h
            obtain ⟨rfl, rfl⟩ := h
            simp [wfJ, wfList]
          · split at h
            · rename_i vs2 r3 heq
              simp only [Option.some.injEq, Prod.mk.injEq] at h
              obtain ⟨rfl, rfl⟩ := h
              have := ihE _ _ _ heq
              simp [wfJ, this]
            · simp at h
        · -- string branch
          split at h
          · rename_i st r2 heq
            simp only [Option.some.injEq, Prod.mk.injEq] at h
            obtain ⟨rfl, rfl⟩ := h
            simp [wfJ]
          · simp at h
        · -- true branch
          split at h
          · simp only [Option.some.injEq, Prod.mk.injEq] at h
            obtain ⟨rfl, rfl⟩ := h
            simp [wfJ]
          · simp at h
        · -- false branch
          split at h
          · simp only [Option.some.injEq, Prod.mk.injEq] at h
            obtain ⟨rfl, rfl⟩ := h
            simp [wfJ]
          · simp at h
        · -- null branch
          split at h
          · simp only [Option.some.injEq, Prod.mk.injEq] at h
            obtain ⟨rfl, rfl⟩ := h
            simp [wfJ]
          · simp at h
        · -- number branch
          split at h
          · rename_i n r2 heq
            simp only [Option.some.injEq, Prod.mk.injEq] at h
            obtain ⟨rfl, rfl⟩ := h
            simp [wfJ]
          · simp at h
    · intro s vs r h
      simp only [parseElems] at h
      split at h
      · simp at h
      · rename_i v0 r0 heq0
        split at h
        · split at h
          · rename_i vs2 r3 heq2
            simp only [Option.some.injEq, Prod.mk.injEq] at h
            obtain ⟨rfl, rfl⟩ := h
            have h1 := ihV _ _ _ heq0
            have h2 := ihE _ _ _ heq2
            simp [wfList, h1, h2]
          · simp at h
        · simp only [Option.some.injEq, Prod.mk.injEq] at h
          obtain ⟨rfl, rfl⟩ := h
          have h1 := ihV _ _ _ heq0
          simp [wfList, h1]
        · simp at h
    · intro s kvs r h
      simp only [parseMembers] at h
      split at h
      · split at h
        · simp at h
        · rename_i k r2 heqS
          split at h
          · split at h
            · simp at h
            · rename_i v0 r4 heqV
              split at h
              · split at h
                · rename_i kvs2 r6 heqM
                  simp only [Option.some.injEq, Prod.mk.injEq] at h
                  obtain ⟨rfl, rfl⟩ := h
                  have h1 := ihV _ _ _ heqV
                  have h2 := ihM _ _ _ heqM
                  simp [wfMembers, h1, h2]
                · simp at h
              · simp only [Option.some.injEq, Prod.mk.injEq] at h
                obtain ⟨rfl, rfl⟩ := h
                have h1 := ihV _ _ _ heqV
                simp [wfMembers, h1]
              · simp at h
          · simp at h
      · simp at h

/-- `json.loads` output is well-formed. -/
theorem jsonLoads_wf (s : Text) (v : JVal) (h : jsonLoads s = some v) :
    wfJ v = true := by
  unfold jsonLoads at h
  split at h
  · simp at h
  · rename_i v0 rest0 heq
    split_ifs at h
    simp only [Option.some.injEq] at h
    subst h
    exact (parse_wf _).1 _ _ _ heq

/-- Re-parsing the pretty-printed serialization of a well-formed value (with its
trailing newline) returns exactly the value. -/
theorem jsonLoads_ser (v : JVal) (hwf : wfJ v = true) :
    jsonLoads (serVal 0 v ++ ['\n']) = some v := by
  unfold jsonLoads
  have hfuel : sizeJ v ≤ (serVal 0 v ++ ['\n']).length + 1 := by
    have := sizeJ_le_serVal_length v 0
    simp [List.length_append]
    omega
  rw [parseVal_ser_rt v hwf 0 _ ['\n'] hfuel (by rfl)]
  simp [skipWs, jws]

/-- The pretty-print transform on the float-free JSON fragment (null, booleans,
integers, strings, arrays, objects — the fragment `jsonLoads` models; fraction
or exponent literals and `NaN`/`Infinity`, which `json.loads` maps to IEEE-754
binary64 floats, are outside it).  With pretty disabled every line is returned
unchanged.  With pretty enabled: a line whose trimmed text does not both start
with a brace and end with a brace is unchanged; a line whose trimmed text fails to
parse is unchanged; a line parsing to anything other than an object containing
the `"jsonrpc"` marker key is unchanged; and a line whose trimmed text parses to
an object with the marker key is replaced by its two-space-indented serialization
plus a newline, whose re-parse is exactly the parsed object. -/
theorem prettify_float_free_spec :
    (∀ line : Text, prettifyIfJson line false = line) ∧
    (∀ line : Text,
      ¬((pyStrip line).head? = some '{' ∧ (pyStrip line).getLast? = some '}') →
      prettifyIfJson line true = line) ∧
    (∀ line : Text, jsonLoads (pyStrip line) = none →
      prettifyIfJson line true = line) ∧
    (∀ line : Text, ∀ v : JVal, jsonLoads (pyStrip line) = some v →
      hasKeyJsonrpc v = false → prettifyIfJson line true = line) ∧
    (∀ line : Text, ∀ kvs : List (Text × JVal),
      (pyStrip line).head? = some '{' → (pyStrip line).getLast? = some '}' →
      jsonLoads (pyStrip line) = some (.obj kvs) →
      keyMem jsonrpcKey kvs = true →
      prettifyIfJson line true = serVal 0 (.obj kvs) ++ ['\n'] ∧
      jsonLoads (serVal 0 (.obj kvs) ++ ['\n']) = some (.obj kvs)) := by
  refine ⟨?_, ?_, ?_, ?_, ?_⟩
  · intro line
    rfl
  · intro line h
    simp [prettifyIfJson, h]
  · intro line hLoads
    by_cases hb : (pyStrip line).head? = some '{' ∧ (pyStrip line).getLast? = some '}'
    · simp [prettifyIfJson, hb, hLoads]
    · simp [prettifyIfJson, hb]
  · intro line v hLoads hKey
    by_cases hb : (pyStrip line).head? = some '{' ∧ (pyStrip line).getLast? = some '}'
    · simp [prettifyIfJson, hb, hLoads, hKey]
    · simp [prettifyIfJson, hb]
  · intro line kvs hb1 hb2 hLoads hKey
    constructor
    · simp [prettifyIfJson, hb1, hb2, hLoads, hasKeyJsonrpc, hKey]
    · exact jsonLoads_ser (.obj kvs) (jsonLoads_wf _ _ hLoads)

/-- A concrete instance of the transform on a marker-keyed object line. -/
theorem prettify_float_free_spec_example :
    prettifyIfJson (strToL " \x7b\"jsonrpc\": 1\x7d ") true =
      serVal 0 (.obj [(strToL "jsonrpc", .num 1)]) ++ ['\n'] ∧
    jsonLoads (serVal 0 (.obj [(strToL "jsonrpc", .num 1)]) ++ ['\n']) =
      some (.obj [(strToL "jsonrpc", .num 1)]) := by
  refine prettify_float_free_spec.2.2.2.2 (strToL " \x7b\"jsonrpc\": 1\x7d ")
    [(strToL "jsonrpc", .num 1)] ?_ ?_ ?_ ?_
  · simp [pyStrip, pyWs, strToL]
  · simp [pyStrip, pyWs, strToL]
  · simp [jsonLoads, strToL, pyStrip, pyWs, parseVal, parseMembers, skipWs, jws,
      parseStr, parseEsc, parseNum, parseNat, isDigitCh, floatFollows, valOfDigits,
      buildObj, insertKey]
  · simp [keyMem, jsonrpcKey, strToL]

/-- C9 (counterexample): the chunk `0xFF` is not valid UTF-8, yet its log record is
the replacement-character text, not the `<binary 1 bytes>` placeholder the claim
requires for undecodable chunks. -/
theorem c9_undecodable_chunk_not_placeholder :
    utf8Valid [0xFF] = false ∧
    (pumpChildStderr recLog true [] [[0xFF]]).logSt = [sErrTag ++ [replChar]] ∧
    sErrTag ++ [replChar] ≠ binaryPlaceholder 1 := by
  refine ⟨?_, ?_, ?_⟩
  · simp [utf8Valid, utf8Step]
  · simp [pumpChildStderr, recLog, utf8DecodeReplace, utf8Step]
  · have h1 : binaryPlaceholder 1 =
        sErrTag ++ strToL "<binary " ++ ['1'] ++ strToL " bytes>" ++ ['\n'] := by
      simp [binaryPlaceholder, natDigits, digitCh]
    rw [h1]
    decide

end Tap
